import Mathlib

/-!
# Andersen-style points-to solver (`Andersen::runPointerAnalysis`)

A shallow embedding of `src/Assignment-5-Andersen/Andersen.cpp`.

* Node identities (`unsigned`) are `Nat`.
* The constraint graph (`SVF::ConstraintGraph`) is a record of per-kind edge lists;
  the per-node accessors (`getAddrInEdges`, `getStoreInEdges`, ...) are filters over them.
* The points-to store `pts` is a total map `Nat → List Nat`; every set is kept as an
  ascending duplicate-free list (`std::set<unsigned>` order), absent keys are `[]`.
* The work queue is a `List Nat` of pending nodes, driven by a `WorkList` discipline
  (`push` / `pop`), which is a parameter of the solver.
* The field oracle `getGepObjVar` is a parameter `rf : Nat → Nat → Nat` (object, field).
* The main `while` loop is run with fuel and returns `none` when the fuel runs out.
-/

namespace Andersen

/-! ## Data model -/

/-- A directed constraint edge `src → dst` (`getSrcID`, `getDstID`); used for the
Addr, Copy, Store and Load kinds, each kept in its own edge set. -/
structure ConstraintEdge where
  src : Nat
  dst : Nat
deriving DecidableEq, Repr

/-- A field-access edge `src → dst` carrying its field descriptor. -/
structure GepCGEdge where
  src : Nat
  dst : Nat
  fld : Nat
deriving DecidableEq, Repr

/-- Modelled from the spec: the class `SVF::ConstraintGraph` is library code whose
declaration is not among the sources. The graph is its node map (`nodes`, in iteration
order of `consg->begin() .. consg->end()`) and one edge set per kind. -/
structure ConstraintGraph where
  nodes : List Nat
  addrEdges : List ConstraintEdge
  copyEdges : List ConstraintEdge
  storeEdges : List ConstraintEdge
  loadEdges : List ConstraintEdge
  gepEdges : List GepCGEdge
deriving Repr

/-- Incoming Addr edges of node `n` (`ConstraintNode::getAddrInEdges`). -/
def getAddrInEdges (g : ConstraintGraph) (n : Nat) : List ConstraintEdge :=
  g.addrEdges.filter (fun e => e.dst == n)

/-- Incoming Store edges of node `n` (`ConstraintNode::getStoreInEdges`). -/
def getStoreInEdges (g : ConstraintGraph) (n : Nat) : List ConstraintEdge :=
  g.storeEdges.filter (fun e => e.dst == n)

/-- Outgoing Load edges of node `n` (`ConstraintNode::getLoadOutEdges`). -/
def getLoadOutEdges (g : ConstraintGraph) (n : Nat) : List ConstraintEdge :=
  g.loadEdges.filter (fun e => e.src == n)

/-- Outgoing Copy edges of node `n` (`ConstraintNode::getCopyOutEdges`). -/
def getCopyOutEdges (g : ConstraintGraph) (n : Nat) : List ConstraintEdge :=
  g.copyEdges.filter (fun e => e.src == n)

/-- Incoming Copy edges of node `n` (`ConstraintNode::getCopyInEdges`). -/
def getCopyInEdges (g : ConstraintGraph) (n : Nat) : List ConstraintEdge :=
  g.copyEdges.filter (fun e => e.dst == n)

/-- Outgoing Gep edges of node `n` (`ConstraintNode::getGepOutEdges`). -/
def getGepOutEdges (g : ConstraintGraph) (n : Nat) : List GepCGEdge :=
  g.gepEdges.filter (fun e => e.src == n)

/-- Modelled from the spec: `ConstraintGraph::addCopyCGEdge` is library code absent from
the sources. Per the data model an edge set never holds a duplicate `(kind, src, dst)`
triple and a duplicate add is a no-op; a new edge is appended to the Copy edge set. -/
def addCopyCGEdge (g : ConstraintGraph) (src dst : Nat) : ConstraintGraph :=
  if (⟨src, dst⟩ : ConstraintEdge) ∈ g.copyEdges then g
  else { g with copyEdges := g.copyEdges ++ [⟨src, dst⟩] }

/-- Insertion into an ascending duplicate-free list (`std::set<unsigned>::insert`). -/
def setInsert (x : Nat) : List Nat → List Nat
  | [] => [x]
  | y :: ys =>
    if x < y then x :: y :: ys
    else if x = y then y :: ys
    else y :: setInsert x ys

/-- Range insertion `set.insert(first, last)`: the elements are inserted one by one. -/
def setInsertAll (xs : List Nat) (l : List Nat) : List Nat :=
  xs.foldl (fun acc x => setInsert x acc) l

/-- The points-to store `pts` (`map<unsigned, set<unsigned>>`); an absent key is `[]`. -/
abbrev PTS := Nat → List Nat

/-- The store of a freshly constructed solver: every points-to set is empty. -/
def emptyPts : PTS := fun _ => []

/-- Replace the set of node `n`. -/
def ptsSet (pts : PTS) (n : Nat) (l : List Nat) : PTS :=
  fun k => if k = n then l else pts k

/-- The statement `pts[n].insert(x)`. -/
def ptsInsert (pts : PTS) (n x : Nat) : PTS :=
  ptsSet pts n (setInsert x (pts n))

/-- The statement `pts[n].insert(xs.begin(), xs.end())`. -/
def ptsInsertAll (pts : PTS) (n : Nat) (xs : List Nat) : PTS :=
  ptsSet pts n (setInsertAll xs (pts n))

/-- The queue discipline of `WorkList<unsigned>` (its declaration is in a header that is
not among the sources, so it is a parameter): the pending nodes are a `List Nat`,
`push` adds a node and `pop` hands out one pending node together with the rest
(`none` on the empty queue). -/
structure WorkList where
  push : List Nat → Nat → List Nat
  pop : List Nat → Option (Nat × List Nat)

/-- The contract of the work queue: `push` makes the node pending and keeps the others,
adding at most one entry; `pop` fails exactly on the empty queue, hands out a pending
node, removes at least one entry and keeps every other pending node pending. -/
structure WorkList.Lawful (W : WorkList) : Prop where
  mem_push : ∀ wl x y, y ∈ W.push wl x ↔ y = x ∨ y ∈ wl
  length_push : ∀ wl x, (W.push wl x).length ≤ wl.length + 1
  pop_none : ∀ wl, W.pop wl = none ↔ wl = []
  pop_mem : ∀ wl p wl', W.pop wl = some (p, wl') → p ∈ wl
  pop_rest : ∀ wl p wl', W.pop wl = some (p, wl') → ∀ y, y ∈ wl → y = p ∨ y ∈ wl'
  pop_sub : ∀ wl p wl', W.pop wl = some (p, wl') → ∀ y, y ∈ wl' → y ∈ wl
  pop_length : ∀ wl p wl', W.pop wl = some (p, wl') → wl'.length < wl.length

/-- Modelled from the spec: a first-in first-out queue that allows redundant entries
(`push` appends at the back, `pop` removes the front). -/
def fifoWorkList : WorkList where
  push := fun wl x => wl ++ [x]
  pop := fun wl =>
    match wl with
    | [] => none
    | p :: rest => some (p, rest)

/-- Modelled from the spec: a first-in first-out queue that dedupes pending entries
(`push` of a pending node is a no-op). -/
def fifoDedupWorkList : WorkList where
  push := fun wl x => if x ∈ wl then wl else wl ++ [x]
  pop := fun wl =>
    match wl with
    | [] => none
    | p :: rest => some (p, rest)

/-- Modelled from the spec: a last-in first-out queue (`push` and `pop` at the front). -/
def lifoWorkList : WorkList where
  push := fun wl x => x :: wl
  pop := fun wl =>
    match wl with
    | [] => none
    | p :: rest => some (p, rest)

/-- The solver state: the graph `consg`, the store `pts` and the local work queue. -/
structure State where
  consg : ConstraintGraph
  pts : PTS
  worklist : List Nat

/-! ## The solver -/

/-- Lines 54-60: one Addr edge `obj → ptr`: `pts[ptr].insert(obj)` and `push(ptr)`. -/
def addrStep (W : WorkList) (s : State) (e : ConstraintEdge) : State :=
  { s with pts := ptsInsert s.pts e.dst e.src, worklist := W.push s.worklist e.dst }

/-- Lines 47-61: the Addr in-edges of one node of the graph. -/
def initNode (W : WorkList) (s : State) (nodeId : Nat) : State :=
  (getAddrInEdges s.consg nodeId).foldl (addrStep W) s

/-- Lines 45-62: the initialization pass over all nodes of the graph. -/
def initPass (W : WorkList) (s : State) : State :=
  s.consg.nodes.foldl (initNode W) s

/-- Lines 78-98: the Store rule for one object and one Store in-edge `sourcePointer → pointer`:
scan the Copy out-edges of `sourcePointer` for one ending in `object`; when there is none,
add `Copy(sourcePointer → object)` and push `sourcePointer`. -/
def storeStep (W : WorkList) (object : Nat) (s : State) (e : ConstraintEdge) : State :=
  let sourcePointer := e.src
  let hasCopyEdge := (getCopyOutEdges s.consg sourcePointer).any (fun c => c.dst == object)
  if hasCopyEdge then s
  else { s with consg := addCopyCGEdge s.consg sourcePointer object,
                worklist := W.push s.worklist sourcePointer }

/-- Lines 106-126: the Load rule for one object and one Load out-edge `pointer → destinationPointer`:
scan the Copy in-edges of `destinationPointer` for one starting at `object`; when there is
none, add `Copy(object → destinationPointer)` and push `object`. -/
def loadStep (W : WorkList) (object : Nat) (s : State) (e : ConstraintEdge) : State :=
  let destinationPointer := e.dst
  let hasCopyEdge := (getCopyInEdges s.consg destinationPointer).any (fun c => c.src == object)
  if hasCopyEdge then s
  else { s with consg := addCopyCGEdge s.consg object destinationPointer,
                worklist := W.push s.worklist object }

/-- Lines 72-127: the body of the per-object loop: all Store in-edges, then all Load out-edges. -/
def objectStep (W : WorkList) (pointer : Nat) (s : State) (object : Nat) : State :=
  let s1 := (getStoreInEdges s.consg pointer).foldl (storeStep W object) s
  (getLoadOutEdges s1.consg pointer).foldl (loadStep W object) s1

/-- Lines 71-128: the loop over the objects of `pts[pointer]` (the set is not changed by it). -/
def storeLoadPhase (W : WorkList) (pointer : Nat) (s : State) : State :=
  (s.pts pointer).foldl (objectStep W pointer) s

/-- Lines 135-147: the Copy rule for one Copy out-edge `pointer → target`: union
`pts[pointer]` into `pts[target]` and push `target` when the set grew. -/
def copyStep (W : WorkList) (pointer : Nat) (s : State) (e : ConstraintEdge) : State :=
  let target := e.dst
  let prevSize := (s.pts target).length
  let pts1 := ptsInsertAll s.pts target (s.pts pointer)
  if (pts1 target).length > prevSize then
    { s with pts := pts1, worklist := W.push s.worklist target }
  else { s with pts := pts1 }

/-- Lines 132-148: the loop over the Copy out-edges of the popped node. -/
def copyPhase (W : WorkList) (pointer : Nat) (s : State) : State :=
  (getCopyOutEdges s.consg pointer).foldl (copyStep W pointer) s

/-- Lines 155-171: the Gep rule for one Gep out-edge `pointer → target`: insert the field
object of every object of `pts[pointer]` into `pts[target]`, then push `target` once when
the set grew. The objects are those of `pts[pointer]` when the inner loop starts (for a
Gep edge from a node to itself the C++ loop walks the set it inserts into; here the set is
walked as it was before the insertions, and the node is pushed again when it grew). -/
def gepStep (W : WorkList) (rf : Nat → Nat → Nat) (pointer : Nat) (s : State)
    (e : GepCGEdge) : State :=
  let target := e.dst
  let prevSize := (s.pts target).length
  let pts1 := (s.pts pointer).foldl (fun m object => ptsInsert m target (rf object e.fld)) s.pts
  if (pts1 target).length > prevSize then
    { s with pts := pts1, worklist := W.push s.worklist target }
  else { s with pts := pts1 }

/-- Lines 152-172: the loop over the Gep out-edges of the popped node. -/
def gepPhase (W : WorkList) (rf : Nat → Nat → Nat) (pointer : Nat) (s : State) : State :=
  (getGepOutEdges s.consg pointer).foldl (gepStep W rf pointer) s

/-- Lines 68-172: the body of the main loop for the popped node `pointer`. -/
def processNode (W : WorkList) (rf : Nat → Nat → Nat) (pointer : Nat) (s : State) : State :=
  gepPhase W rf pointer (copyPhase W pointer (storeLoadPhase W pointer s))

/-- Lines 65-173: the main loop, with fuel: at most `fuel` pops; `none` when the queue is
still non-empty after them. -/
def mainLoop (W : WorkList) (rf : Nat → Nat → Nat) : Nat → State → Option State
  | 0, s =>
    match W.pop s.worklist with
    | none => some s
    | some _ => none
  | fuel + 1, s =>
    match W.pop s.worklist with
    | none => some s
    | some (pointer, rest) => mainLoop W rf fuel (processNode W rf pointer { s with worklist := rest })

/-- The state in which the solver starts: the given graph, an empty store, an empty queue. -/
def initState (g : ConstraintGraph) : State :=
  { consg := g, pts := emptyPts, worklist := [] }

/-- `Andersen::runPointerAnalysis` on graph `g`: initialization pass, then the main loop. -/
def runPointerAnalysis (W : WorkList) (rf : Nat → Nat → Nat) (fuel : Nat)
    (g : ConstraintGraph) : Option State :=
  mainLoop W rf fuel (initPass W (initState g))

/-! ## Auxiliary notions used by the proofs -/

/-- The shared shape of the Copy and the Gep rule: insert `xs` into `pts[target]` and push
`target` when the set grew. -/
def growStep (W : WorkList) (s : State) (target : Nat) (xs : List Nat) : State :=
  let pts1 := ptsInsertAll s.pts target xs
  if (pts1 target).length > (s.pts target).length then
    { s with pts := pts1, worklist := W.push s.worklist target }
  else { s with pts := pts1 }

/-- The frame of the solver: `s2` has the nodes and the Addr, Store, Load and Gep edges of
`s1`, every Copy edge of `s1`, and every points-to set of `s2` contains that of `s1`. -/
structure Grows (s1 s2 : State) : Prop where
  nodes : s2.consg.nodes = s1.consg.nodes
  addr : s2.consg.addrEdges = s1.consg.addrEdges
  store : s2.consg.storeEdges = s1.consg.storeEdges
  load : s2.consg.loadEdges = s1.consg.loadEdges
  gep : s2.consg.gepEdges = s1.consg.gepEdges
  copy_mono : ∀ e, e ∈ s1.consg.copyEdges → e ∈ s2.consg.copyEdges
  pts_mono : ∀ n x, x ∈ s1.pts n → x ∈ s2.pts n

/-- A run segment without pops: `s2` grows `s1`, every node pending in `s1` is pending in
`s2`, every node whose points-to set changed is pending in `s2`, and so is the source of
every new Copy edge. -/
structure Ext (s1 s2 : State) extends Grows s1 s2 : Prop where
  wl_mono : ∀ n, n ∈ s1.worklist → n ∈ s2.worklist
  pts_push : ∀ n, s2.pts n ≠ s1.pts n → n ∈ s2.worklist
  copy_push : ∀ e, e ∈ s2.consg.copyEdges → e ∉ s1.consg.copyEdges → e.src ∈ s2.worklist

/-- All four propagation rules are satisfied at node `n` in state `s`. -/
def Sat (rf : Nat → Nat → Nat) (s : State) (n : Nat) : Prop :=
  (∀ st ∈ s.consg.storeEdges, st.dst = n → ∀ o ∈ s.pts n,
      (⟨st.src, o⟩ : ConstraintEdge) ∈ s.consg.copyEdges) ∧
  (∀ ld ∈ s.consg.loadEdges, ld.src = n → ∀ o ∈ s.pts n,
      (⟨o, ld.dst⟩ : ConstraintEdge) ∈ s.consg.copyEdges) ∧
  (∀ c ∈ s.consg.copyEdges, c.src = n → ∀ x ∈ s.pts n, x ∈ s.pts c.dst) ∧
  (∀ ge ∈ s.consg.gepEdges, ge.src = n → ∀ o ∈ s.pts n, rf o ge.fld ∈ s.pts ge.dst)

/-- Every node that is not pending has all its rules satisfied. -/
def Coverage (rf : Nat → Nat → Nat) (s : State) : Prop :=
  ∀ n, n ∉ s.worklist → Sat rf s n

/-- A fact of the analysis: `x ∈ pointsTo(n)`, or the presence of `Copy(a → b)`. -/
inductive Fact where
  | pts (n x : Nat)
  | copy (a b : Nat)

/-- The facts derivable from the input graph `g` by the inclusion rules: Addr edges into a
node of the graph seed points-to facts, the Copy edges of `g` are present, Store and Load
derive Copy edges, Copy and Gep edges propagate points-to facts. -/
inductive Derivable (g : ConstraintGraph) (rf : Nat → Nat → Nat) : Fact → Prop where
  | addr (e : ConstraintEdge) : e ∈ g.addrEdges → e.dst ∈ g.nodes →
      Derivable g rf (Fact.pts e.dst e.src)
  | copyEdge (e : ConstraintEdge) : e ∈ g.copyEdges → Derivable g rf (Fact.copy e.src e.dst)
  | store (e : ConstraintEdge) (o : Nat) : e ∈ g.storeEdges →
      Derivable g rf (Fact.pts e.dst o) → Derivable g rf (Fact.copy e.src o)
  | load (e : ConstraintEdge) (o : Nat) : e ∈ g.loadEdges →
      Derivable g rf (Fact.pts e.src o) → Derivable g rf (Fact.copy o e.dst)
  | copy (a b x : Nat) : Derivable g rf (Fact.copy a b) → Derivable g rf (Fact.pts a x) →
      Derivable g rf (Fact.pts b x)
  | gep (e : GepCGEdge) (o : Nat) : e ∈ g.gepEdges → Derivable g rf (Fact.pts e.src o) →
      Derivable g rf (Fact.pts e.dst (rf o e.fld))

/-- State `s` belongs to a run on input graph `g`: it has the nodes and the Addr, Store,
Load and Gep edges of `g`, all its facts are derivable from `g`, and every points-to set
is an ascending list. -/
structure Sound (g : ConstraintGraph) (rf : Nat → Nat → Nat) (s : State) : Prop where
  nodes : s.consg.nodes = g.nodes
  addr : s.consg.addrEdges = g.addrEdges
  store : s.consg.storeEdges = g.storeEdges
  load : s.consg.loadEdges = g.loadEdges
  gep : s.consg.gepEdges = g.gepEdges
  pts : ∀ n x, x ∈ s.pts n → Derivable g rf (Fact.pts n x)
  copy : ∀ e, e ∈ s.consg.copyEdges → Derivable g rf (Fact.copy e.src e.dst)
  sorted : ∀ n, (s.pts n).Pairwise (· < ·)

/-- A mapping `S` from nodes to sets of objects satisfies all constraints of graph `g`. -/
structure Solution (g : ConstraintGraph) (rf : Nat → Nat → Nat) (S : Nat → Set Nat) : Prop where
  addr : ∀ e ∈ g.addrEdges, e.src ∈ S e.dst
  copy : ∀ e ∈ g.copyEdges, S e.src ⊆ S e.dst
  store : ∀ e ∈ g.storeEdges, ∀ o ∈ S e.dst, S e.src ⊆ S o
  load : ∀ e ∈ g.loadEdges, ∀ o ∈ S e.src, S o ⊆ S e.dst
  gep : ∀ e ∈ g.gepEdges, ∀ o ∈ S e.src, rf o e.fld ∈ S e.dst

/-- What holds of the final state of a run on graph `g`: its facts are derivable from `g`,
its queue is empty and every node has all its rules satisfied, it grows the initial state,
and every Addr edge into a node of `g` is reflected in the store. -/
structure Final (g : ConstraintGraph) (rf : Nat → Nat → Nat) (s : State) : Prop where
  sound : Sound g rf s
  empty : s.worklist = []
  sat : ∀ n, Sat rf s n
  grows : Grows (initState g) s
  seeded : ∀ e ∈ g.addrEdges, e.dst ∈ g.nodes → e.src ∈ s.pts e.dst

/-- The node set `V` contains every endpoint of every edge of `g` and every value of the
field oracle. -/
structure Closed (g : ConstraintGraph) (rf : Nat → Nat → Nat) (V : Finset Nat) : Prop where
  addr : ∀ e ∈ g.addrEdges, e.src ∈ V ∧ e.dst ∈ V
  copy : ∀ e ∈ g.copyEdges, e.src ∈ V ∧ e.dst ∈ V
  store : ∀ e ∈ g.storeEdges, e.src ∈ V ∧ e.dst ∈ V
  load : ∀ e ∈ g.loadEdges, e.src ∈ V ∧ e.dst ∈ V
  gep : ∀ e ∈ g.gepEdges, e.src ∈ V ∧ e.dst ∈ V
  field : ∀ o f, rf o f ∈ V

/-- The endpoints of all edges of the graph. -/
def graphNodes (g : ConstraintGraph) : List Nat :=
  (g.addrEdges ++ g.copyEdges ++ g.storeEdges ++ g.loadEdges).map (fun e => e.src)
    ++ (g.addrEdges ++ g.copyEdges ++ g.storeEdges ++ g.loadEdges).map (fun e => e.dst)
    ++ g.gepEdges.map (fun e => e.src) ++ g.gepEdges.map (fun e => e.dst)

/-- The quantity that pays for pushes: the number of distinct Copy edges plus the total
size of the points-to sets of the nodes of `V`. -/
def potential (V : Finset Nat) (s : State) : Nat :=
  s.consg.copyEdges.toFinset.card + ∑ n ∈ V, (s.pts n).length

/-- From `s1` to `s2` the queue grew by no more than the potential did. -/
def Acct (V : Finset Nat) (s1 s2 : State) : Prop :=
  s2.worklist.length + potential V s1 ≤ s1.worklist.length + potential V s2

/-- The states the solver can pass through on input graph `g`: the initial state, and every
state obtained from one of them by an Addr insertion, a pop, or one application of the
Store, Load, Copy or Gep rule (to any object and edge, which covers the ones the loops
choose). -/
inductive Reachable (W : WorkList) (rf : Nat → Nat → Nat) (g : ConstraintGraph) : State → Prop where
  | start : Reachable W rf g (initState g)
  | addr (s : State) (e : ConstraintEdge) : Reachable W rf g s → Reachable W rf g (addrStep W s e)
  | pop (s : State) (p : Nat) (rest : List Nat) : Reachable W rf g s →
      W.pop s.worklist = some (p, rest) → Reachable W rf g { s with worklist := rest }
  | store (s : State) (o : Nat) (e : ConstraintEdge) : Reachable W rf g s →
      Reachable W rf g (storeStep W o s e)
  | load (s : State) (o : Nat) (e : ConstraintEdge) : Reachable W rf g s →
      Reachable W rf g (loadStep W o s e)
  | copy (s : State) (p : Nat) (e : ConstraintEdge) : Reachable W rf g s →
      Reachable W rf g (copyStep W p s e)
  | gep (s : State) (p : Nat) (e : GepCGEdge) : Reachable W rf g s →
      Reachable W rf g (gepStep W rf p s e)

/-- Every points-to set of the state is an ascending list (the shape of a `std::set`). -/
def SortedPts (s : State) : Prop :=
  ∀ n, (s.pts n).Pairwise (· < ·)

/-- The states at the head of the main loop of a run on graph `g`: the state after the
initialization pass, and the state after each pop-and-process iteration. -/
inductive LoopHead (W : WorkList) (rf : Nat → Nat → Nat) (g : ConstraintGraph) : State → Prop where
  | init : LoopHead W rf g (initPass W (initState g))
  | step (s : State) (p : Nat) (rest : List Nat) : LoopHead W rf g s →
      W.pop s.worklist = some (p, rest) →
      LoopHead W rf g (processNode W rf p { s with worklist := rest })

/-- The states a run on graph `g` passes through, rule application by rule application:
the Addr insertions are those of Addr edges into nodes of `g`, the Store and Load rules are
applied to an edge of `g` and an object of the points-to set of the node it hangs on, the
Copy rule to a Copy edge of the current graph and the Gep rule to a Gep edge of `g`. -/
inductive Visited (W : WorkList) (rf : Nat → Nat → Nat) (g : ConstraintGraph) : State → Prop where
  | start : Visited W rf g (initState g)
  | addr (s : State) (e : ConstraintEdge) : Visited W rf g s → e ∈ g.addrEdges →
      e.dst ∈ g.nodes → Visited W rf g (addrStep W s e)
  | pop (s : State) (p : Nat) (rest : List Nat) : Visited W rf g s →
      W.pop s.worklist = some (p, rest) → Visited W rf g { s with worklist := rest }
  | store (s : State) (o : Nat) (e : ConstraintEdge) : Visited W rf g s → e ∈ g.storeEdges →
      o ∈ s.pts e.dst → Visited W rf g (storeStep W o s e)
  | load (s : State) (o : Nat) (e : ConstraintEdge) : Visited W rf g s → e ∈ g.loadEdges →
      o ∈ s.pts e.src → Visited W rf g (loadStep W o s e)
  | copy (s : State) (p : Nat) (e : ConstraintEdge) : Visited W rf g s →
      e ∈ s.consg.copyEdges → e.src = p → Visited W rf g (copyStep W p s e)
  | gep (s : State) (p : Nat) (e : GepCGEdge) : Visited W rf g s → e ∈ g.gepEdges →
      e.src = p → Visited W rf g (gepStep W rf p s e)

/-! ## The per-object variant of the Gep rule

The variant follows the alternative the specification describes for the Gep rule: the
growth of `pts[target]` is checked, and `target` pushed, after each single insertion of a
field object instead of once per Gep edge. Everything else is the solver as written. -/

/-- Per-object variant, one object: insert its field object into `pts[target]` and push
`target` when this insertion grew the set. -/
def gepObjectStepPerObject (W : WorkList) (rf : Nat → Nat → Nat) (e : GepCGEdge) (s : State)
    (object : Nat) : State :=
  let target := e.dst
  let prevSize := (s.pts target).length
  let pts1 := ptsInsert s.pts target (rf object e.fld)
  if (pts1 target).length > prevSize then
    { s with pts := pts1, worklist := W.push s.worklist target }
  else { s with pts := pts1 }

/-- Per-object variant of `gepStep`: the objects of `pts[pointer]` (as it stands when the
inner loop starts) are handled one by one. -/
def gepStepPerObject (W : WorkList) (rf : Nat → Nat → Nat) (pointer : Nat) (s : State)
    (e : GepCGEdge) : State :=
  (s.pts pointer).foldl (gepObjectStepPerObject W rf e) s

/-- Per-object variant of `gepPhase`. -/
def gepPhasePerObject (W : WorkList) (rf : Nat → Nat → Nat) (pointer : Nat) (s : State) : State :=
  (getGepOutEdges s.consg pointer).foldl (gepStepPerObject W rf pointer) s

/-- Per-object variant of `processNode`: only the Gep phase differs. -/
def processNodePerObject (W : WorkList) (rf : Nat → Nat → Nat) (pointer : Nat) (s : State) :
    State :=
  gepPhasePerObject W rf pointer (copyPhase W pointer (storeLoadPhase W pointer s))

/-- Per-object variant of `mainLoop`. -/
def mainLoopPerObject (W : WorkList) (rf : Nat → Nat → Nat) : Nat → State → Option State
  | 0, s =>
    match W.pop s.worklist with
    | none => some s
    | some _ => none
  | fuel + 1, s =>
    match W.pop s.worklist with
    | none => some s
    | some (pointer, rest) =>
      mainLoopPerObject W rf fuel (processNodePerObject W rf pointer { s with worklist := rest })

/-- Per-object variant of `runPointerAnalysis`. -/
def runPointerAnalysisPerObject (W : WorkList) (rf : Nat → Nat → Nat) (fuel : Nat)
    (g : ConstraintGraph) : Option State :=
  mainLoopPerObject W rf fuel (initPass W (initState g))

/-! ## Concrete graphs

Objects `O1 = 1`, `O2 = 2`; pointers `P1 = 11`, `P2 = 12`, `P3 = 13`, `P4 = 14`. -/

/-- A field oracle: a fresh object per (object, field) pair. -/
def fieldOf (o f : Nat) : Nat := 100 + 10 * o + f

/-- A field oracle with finitely many values. -/
def cappedField (o f : Nat) : Nat := min (o + f + 1) 20

/-- Scenario 1: `Addr(O1 → P1)`. -/
def scenario1 : ConstraintGraph :=
  { nodes := [1, 11], addrEdges := [⟨1, 11⟩], copyEdges := [], storeEdges := [],
    loadEdges := [], gepEdges := [] }

/-- Scenario 2: `Addr(O1 → P1)`, `Copy(P1 → P2)`. -/
def scenario2 : ConstraintGraph :=
  { nodes := [1, 11, 12], addrEdges := [⟨1, 11⟩], copyEdges := [⟨11, 12⟩], storeEdges := [],
    loadEdges := [], gepEdges := [] }

/-- Scenario 3: `Addr(O1 → P1)`, `Store(P1 → P2)`, `Addr(O2 → P2)`. -/
def scenario3 : ConstraintGraph :=
  { nodes := [1, 2, 11, 12], addrEdges := [⟨1, 11⟩, ⟨2, 12⟩], copyEdges := [],
    storeEdges := [⟨11, 12⟩], loadEdges := [], gepEdges := [] }

/-- Scenario 4: `Addr(O1 → P1)`, `Load(P1 → P2)`, and `Addr(O2 → P3)`, `Copy(P3 → O1)`
feeding `O1`. -/
def scenario4 : ConstraintGraph :=
  { nodes := [1, 2, 11, 12, 13], addrEdges := [⟨1, 11⟩, ⟨2, 13⟩], copyEdges := [⟨13, 1⟩],
    storeEdges := [], loadEdges := [⟨11, 12⟩], gepEdges := [] }

/-- Scenario 5: `Addr(O1 → P1)`, `Gep(P1 → P2, 3)`. -/
def scenario5 : ConstraintGraph :=
  { nodes := [1, 11, 12], addrEdges := [⟨1, 11⟩], copyEdges := [], storeEdges := [],
    loadEdges := [], gepEdges := [⟨11, 12, 3⟩] }

/-- A graph with every kind of edge: `Addr(O1 → P1)`, `Addr(O2 → P2)`, `Copy(P1 → P3)`,
`Store(P1 → P2)`, `Load(P2 → P4)`, `Gep(P3 → P4, 3)`. -/
def mixedGraph : ConstraintGraph :=
  { nodes := [1, 2, 11, 12, 13, 14], addrEdges := [⟨1, 11⟩, ⟨2, 12⟩], copyEdges := [⟨11, 13⟩],
    storeEdges := [⟨11, 12⟩], loadEdges := [⟨12, 14⟩], gepEdges := [⟨13, 14, 3⟩] }

/-- A cycle through a Gep edge: `Addr(O1 → P1)`, `Gep(P1 → P2, 3)`, `Copy(P2 → P1)`. -/
def gepCycle : ConstraintGraph :=
  { nodes := [1, 11, 12], addrEdges := [⟨1, 11⟩], copyEdges := [⟨12, 11⟩], storeEdges := [],
    loadEdges := [], gepEdges := [⟨11, 12, 3⟩] }

/-- A mapping that satisfies the constraints of scenario 1: `P1 ↦ {O1}`, all else empty. -/
def scenario1Solution : Nat → Set Nat := fun n => if n = 11 then {1} else ∅

/-- The result of the solver on scenario 1 (first-in first-out queue). -/
def scenario1Final : State :=
  (runPointerAnalysis fifoWorkList fieldOf 10 scenario1).getD (initState scenario1)

/-- The result of the solver on scenario 2 (first-in first-out queue). -/
def scenario2Final : State :=
  (runPointerAnalysis fifoWorkList fieldOf 10 scenario2).getD (initState scenario2)

/-- The result of the solver on scenario 3 (first-in first-out queue). -/
def scenario3Final : State :=
  (runPointerAnalysis fifoWorkList fieldOf 10 scenario3).getD (initState scenario3)

/-- The result of the solver on scenario 4 (first-in first-out queue). -/
def scenario4Final : State :=
  (runPointerAnalysis fifoWorkList fieldOf 10 scenario4).getD (initState scenario4)

/-- The result of the solver on scenario 5 (first-in first-out queue). -/
def scenario5Final : State :=
  (runPointerAnalysis fifoWorkList fieldOf 10 scenario5).getD (initState scenario5)

/-- The result of the solver on `mixedGraph` with the first-in first-out queue. -/
def mixedFifoFinal : State :=
  (runPointerAnalysis fifoWorkList fieldOf 20 mixedGraph).getD (initState mixedGraph)

/-- The result of the solver on `mixedGraph` with the last-in first-out queue. -/
def mixedLifoFinal : State :=
  (runPointerAnalysis lifoWorkList fieldOf 20 mixedGraph).getD (initState mixedGraph)

/-- Two objects behind one Gep edge: `Addr(O1 → P1)`, `Addr(O2 → P1)`, `Gep(P1 → P2, 3)`,
`Copy(P2 → P3)`. -/
def gepPair : ConstraintGraph :=
  { nodes := [1, 2, 11, 12, 13], addrEdges := [⟨1, 11⟩, ⟨2, 11⟩], copyEdges := [⟨12, 13⟩],
    storeEdges := [], loadEdges := [], gepEdges := [⟨11, 12, 3⟩] }

/-- The result of the solver as written on `gepPair` (first-in first-out queue). -/
def gepPairFinal : State :=
  (runPointerAnalysis fifoWorkList fieldOf 20 gepPair).getD (initState gepPair)

/-- The result of the per-object variant on `gepPair` (first-in first-out queue). -/
def gepPairPerObjectFinal : State :=
  (runPointerAnalysisPerObject fifoWorkList fieldOf 20 gepPair).getD (initState gepPair)

/-- A state before the initialization pass of scenario 1 whose store already has
`O1 ∈ pointsTo(P1)`. -/
def preseeded : State :=
  { consg := scenario1, pts := ptsSet emptyPts 11 [1], worklist := [] }

/-- The state after the initialization pass of scenario 3 (first-in first-out queue). -/
def scenario3Init : State :=
  initPass fifoWorkList (initState scenario3)

/-! ## Lemmas on folds and on the set operations -/

theorem foldl_inv {α β : Type} (P : β → Prop) (f : β → α → β) (l : List α) (b : β)
    (h0 : P b) (hstep : ∀ b a, a ∈ l → P b → P (f b a)) : P (l.foldl f b) := by
  induction l generalizing b with
  | nil => simpa using h0
  | cons a l ih =>
    simp only [List.foldl_cons]
    apply ih
    · exact hstep b a (List.mem_cons_self _ _) h0
    · intro b2 a2 ha2 hb2
      exact hstep b2 a2 (List.mem_cons_of_mem _ ha2) hb2

theorem foldl_achieves {α β : Type} (I : β → Prop) (Q : α → β → Prop) (f : β → α → β)
    (l : List α) (b : β) (hI0 : I b)
    (hI : ∀ b a, a ∈ l → I b → I (f b a))
    (hach : ∀ b a, a ∈ l → I b → Q a (f b a))
    (hpres : ∀ b a a2, a2 ∈ l → I b → Q a b → Q a (f b a2)) :
    ∀ a ∈ l, Q a (l.foldl f b) := by
  induction l generalizing b with
  | nil => intro a ha; cases ha
  | cons a0 l ih =>
    intro a ha
    simp only [List.foldl_cons]
    have hI1 : I (f b a0) := hI b a0 (List.mem_cons_self _ _) hI0
    have hI2 : ∀ b a, a ∈ l → I b → I (f b a) :=
      fun b a ha hb => hI b a (List.mem_cons_of_mem _ ha) hb
    have hpres2 : ∀ b a a2, a2 ∈ l → I b → Q a b → Q a (f b a2) :=
      fun b a a2 ha2 hb hq => hpres b a a2 (List.mem_cons_of_mem _ ha2) hb hq
    rcases List.mem_cons.mp ha with h | h
    · subst h
      have hq : Q a (f b a) := hach b a (List.mem_cons_self _ _) hI0
      exact foldl_inv (fun b2 => I b2 ∧ Q a b2) f l (f b a) ⟨hI1, hq⟩
        (fun b2 a2 ha2 hb2 => ⟨hI2 b2 a2 ha2 hb2.1, hpres2 b2 a a2 ha2 hb2.1 hb2.2⟩) |>.2
    · exact ih (f b a0) hI1 hI2
        (fun b a ha hb => hach b a (List.mem_cons_of_mem _ ha) hb) hpres2 a h

theorem mem_setInsert (a x : Nat) (l : List Nat) : a ∈ setInsert x l ↔ a = x ∨ a ∈ l := by
  induction l with
  | nil => simp [setInsert]
  | cons y ys ih =>
    unfold setInsert
    split
    · simp
    · split
      · rename_i h1 h2
        subst h2
        simp
      · simp only [List.mem_cons, ih]
        tauto

theorem setInsert_length (x : Nat) (l : List Nat) :
    setInsert x l = l ∨ (setInsert x l).length = l.length + 1 := by
  induction l with
  | nil => right; simp [setInsert]
  | cons y ys ih =>
    unfold setInsert
    split
    · right; simp
    · split
      · left; rfl
      · rcases ih with h | h
        · left; rw [h]
        · right; simp [h]

theorem setInsert_sorted (x : Nat) (l : List Nat) (h : l.Pairwise (· < ·)) :
    (setInsert x l).Pairwise (· < ·) := by
  induction l with
  | nil => simp [setInsert]
  | cons y ys ih =>
    rw [List.pairwise_cons] at h
    unfold setInsert
    split
    · rename_i hxy
      refine List.pairwise_cons.mpr ⟨?_, List.pairwise_cons.mpr h⟩
      intro a ha
      rcases List.mem_cons.mp ha with h1 | h1
      · rw [h1]; exact hxy
      · exact Nat.lt_trans hxy (h.1 a h1)
    · split
      · exact List.pairwise_cons.mpr h
      · rename_i h1 h2
        refine List.pairwise_cons.mpr ⟨?_, ih h.2⟩
        intro a ha
        rcases (mem_setInsert a x ys).mp ha with h3 | h3
        · rw [h3]; omega
        · exact h.1 a h3

theorem mem_setInsertAll (a : Nat) (xs l : List Nat) :
    a ∈ setInsertAll xs l ↔ a ∈ xs ∨ a ∈ l := by
  unfold setInsertAll
  induction xs generalizing l with
  | nil => simp
  | cons x xs ih =>
    simp only [List.foldl_cons, ih, mem_setInsert, List.mem_cons]
    tauto

theorem setInsertAll_length (xs l : List Nat) :
    setInsertAll xs l = l ∨ l.length < (setInsertAll xs l).length := by
  unfold setInsertAll
  induction xs generalizing l with
  | nil => left; rfl
  | cons x xs ih =>
    simp only [List.foldl_cons]
    rcases setInsert_length x l with h | h
    · rw [h]; exact ih l
    · right
      rcases ih (setInsert x l) with h2 | h2
      · rw [h2]; omega
      · omega

theorem setInsertAll_sorted (xs l : List Nat) (h : l.Pairwise (· < ·)) :
    (setInsertAll xs l).Pairwise (· < ·) := by
  unfold setInsertAll
  induction xs generalizing l with
  | nil => simpa using h
  | cons x xs ih =>
    simp only [List.foldl_cons]
    exact ih _ (setInsert_sorted x l h)

theorem ptsSet_same (pts : PTS) (n : Nat) (l : List Nat) : ptsSet pts n l n = l := by
  simp [ptsSet]

theorem ptsSet_other (pts : PTS) (n k : Nat) (l : List Nat) (h : k ≠ n) :
    ptsSet pts n l k = pts k := by
  simp [ptsSet, h]

theorem gepFold_eq (rf : Nat → Nat → Nat) (target fld : Nat) (objs : List Nat) (pts : PTS) :
    objs.foldl (fun m object => ptsInsert m target (rf object fld)) pts
      = ptsInsertAll pts target (objs.map (fun o => rf o fld)) := by
  induction objs generalizing pts with
  | nil =>
    funext k
    by_cases hk : k = target <;> simp [ptsInsertAll, ptsSet, setInsertAll, hk]
  | cons o os ih =>
    simp only [List.foldl_cons, List.map_cons]
    rw [ih]
    funext k
    by_cases hk : k = target <;>
      simp [ptsInsertAll, ptsInsert, ptsSet, setInsertAll, hk]

theorem copyStep_eq (W : WorkList) (pointer : Nat) (s : State) (e : ConstraintEdge) :
    copyStep W pointer s e = growStep W s e.dst (s.pts pointer) := rfl

theorem gepStep_eq (W : WorkList) (rf : Nat → Nat → Nat) (pointer : Nat) (s : State)
    (e : GepCGEdge) :
    gepStep W rf pointer s e = growStep W s e.dst ((s.pts pointer).map (fun o => rf o e.fld)) := by
  unfold gepStep growStep
  simp only [gepFold_eq]

theorem mem_addCopyCGEdge (g : ConstraintGraph) (a b : Nat) (e : ConstraintEdge) :
    e ∈ (addCopyCGEdge g a b).copyEdges ↔ e ∈ g.copyEdges ∨ e = ⟨a, b⟩ := by
  unfold addCopyCGEdge
  split
  · rename_i h
    constructor
    · intro h1; exact Or.inl h1
    · rintro (h1 | h1)
      · exact h1
      · rw [h1]; exact h
  · simp

theorem hasCopyOut_iff (g : ConstraintGraph) (a b : Nat) :
    (getCopyOutEdges g a).any (fun c => c.dst == b) = true ↔
      (⟨a, b⟩ : ConstraintEdge) ∈ g.copyEdges := by
  simp only [getCopyOutEdges, List.any_eq_true, List.mem_filter, beq_iff_eq]
  constructor
  · rintro ⟨c, ⟨hc, h1⟩, h2⟩
    cases c
    simp only at h1 h2
    subst h1; subst h2
    exact hc
  · intro h
    exact ⟨⟨a, b⟩, ⟨h, rfl⟩, rfl⟩

theorem hasCopyIn_iff (g : ConstraintGraph) (a b : Nat) :
    (getCopyInEdges g b).any (fun c => c.src == a) = true ↔
      (⟨a, b⟩ : ConstraintEdge) ∈ g.copyEdges := by
  simp only [getCopyInEdges, List.any_eq_true, List.mem_filter, beq_iff_eq]
  constructor
  · rintro ⟨c, ⟨hc, h1⟩, h2⟩
    cases c
    simp only at h1 h2
    subst h1; subst h2
    exact hc
  · intro h
    exact ⟨⟨a, b⟩, ⟨h, rfl⟩, rfl⟩

/-! ## Frame and push discipline of every rule -/

theorem Grows.grows_refl (s : State) : Grows s s :=
  ⟨rfl, rfl, rfl, rfl, rfl, fun _ h => h, fun _ _ h => h⟩

theorem Grows.grows_trans {a b c : State} (h1 : Grows a b) (h2 : Grows b c) : Grows a c :=
  ⟨h2.nodes.trans h1.nodes, h2.addr.trans h1.addr, h2.store.trans h1.store,
   h2.load.trans h1.load, h2.gep.trans h1.gep,
   fun e h => h2.copy_mono e (h1.copy_mono e h),
   fun n x h => h2.pts_mono n x (h1.pts_mono n x h)⟩

theorem Grows.grows_setWorklist (s : State) (wl : List Nat) : Grows s { s with worklist := wl } :=
  ⟨rfl, rfl, rfl, rfl, rfl, fun _ h => h, fun _ _ h => h⟩

theorem Ext.ext_refl (s : State) : Ext s s :=
  { Grows.grows_refl s with
    wl_mono := fun _ h => h
    pts_push := fun _ h => absurd rfl h
    copy_push := fun _ h1 h2 => absurd h1 h2 }

theorem Ext.ext_trans {a b c : State} (h1 : Ext a b) (h2 : Ext b c) : Ext a c :=
  { Grows.grows_trans h1.toGrows h2.toGrows with
    wl_mono := fun n h => h2.wl_mono n (h1.wl_mono n h)
    pts_push := by
      intro n hne
      by_cases h : b.pts n = a.pts n
      · apply h2.pts_push n
        rw [h]; exact hne
      · exact h2.wl_mono n (h1.pts_push n h)
    copy_push := by
      intro e he hne
      by_cases h : e ∈ b.consg.copyEdges
      · exact h2.wl_mono _ (h1.copy_push e h hne)
      · exact h2.copy_push e he h }

theorem mem_ptsInsertAll (pts : PTS) (t : Nat) (xs : List Nat) (n x : Nat) :
    x ∈ ptsInsertAll pts t xs n ↔ x ∈ pts n ∨ (n = t ∧ x ∈ xs) := by
  unfold ptsInsertAll ptsSet
  by_cases h : n = t
  · subst h
    simp only [if_true, mem_setInsertAll, true_and]
    tauto
  · simp [h]

theorem mem_ptsInsert (pts : PTS) (t y : Nat) (n x : Nat) :
    x ∈ ptsInsert pts t y n ↔ x ∈ pts n ∨ (n = t ∧ x = y) := by
  unfold ptsInsert ptsSet
  by_cases h : n = t
  · subst h
    simp only [if_true, mem_setInsert, true_and]
    tauto
  · simp [h]

theorem addrStep_ext (W : WorkList) (hW : W.Lawful) (s : State) (e : ConstraintEdge) :
    Ext s (addrStep W s e) where
  nodes := rfl
  addr := rfl
  store := rfl
  load := rfl
  gep := rfl
  copy_mono := fun _ h => h
  pts_mono := fun n x h => (mem_ptsInsert _ _ _ _ _).mpr (Or.inl h)
  wl_mono := fun n h => (hW.mem_push _ _ _).mpr (Or.inr h)
  pts_push := by
    intro n hne
    by_cases h : n = e.dst
    · exact (hW.mem_push _ _ _).mpr (Or.inl h)
    · exact absurd (ptsSet_other _ _ _ _ h) hne
  copy_push := fun _ h1 h2 => absurd h1 h2

theorem storeStep_pts (W : WorkList) (o : Nat) (s : State) (e : ConstraintEdge) :
    (storeStep W o s e).pts = s.pts := by
  unfold storeStep
  simp only
  split <;> rfl

theorem loadStep_pts (W : WorkList) (o : Nat) (s : State) (e : ConstraintEdge) :
    (loadStep W o s e).pts = s.pts := by
  unfold loadStep
  simp only
  split <;> rfl

theorem addCopy_grows (s : State) (a b : Nat) (wl : List Nat) :
    Grows s { s with consg := addCopyCGEdge s.consg a b, worklist := wl } := by
  refine ⟨?_, ?_, ?_, ?_, ?_, ?_, fun _ _ h => h⟩
  · simp only [addCopyCGEdge]; split <;> rfl
  · simp only [addCopyCGEdge]; split <;> rfl
  · simp only [addCopyCGEdge]; split <;> rfl
  · simp only [addCopyCGEdge]; split <;> rfl
  · simp only [addCopyCGEdge]; split <;> rfl
  · intro e h
    exact (mem_addCopyCGEdge _ _ _ _).mpr (Or.inl h)

theorem storeStep_ext (W : WorkList) (hW : W.Lawful) (o : Nat) (s : State)
    (e : ConstraintEdge) : Ext s (storeStep W o s e) := by
  unfold storeStep
  simp only
  split
  · exact Ext.ext_refl s
  · exact
      { addCopy_grows s e.src o _ with
        wl_mono := fun n h => (hW.mem_push _ _ _).mpr (Or.inr h)
        pts_push := fun _ h => absurd rfl h
        copy_push := by
          intro c hc hnc
          rcases (mem_addCopyCGEdge _ _ _ _).mp hc with h | h
          · exact absurd h hnc
          · rw [h]; exact (hW.mem_push _ _ _).mpr (Or.inl rfl) }

theorem loadStep_ext (W : WorkList) (hW : W.Lawful) (o : Nat) (s : State)
    (e : ConstraintEdge) : Ext s (loadStep W o s e) := by
  unfold loadStep
  simp only
  split
  · exact Ext.ext_refl s
  · exact
      { addCopy_grows s o e.dst _ with
        wl_mono := fun n h => (hW.mem_push _ _ _).mpr (Or.inr h)
        pts_push := fun _ h => absurd rfl h
        copy_push := by
          intro c hc hnc
          rcases (mem_addCopyCGEdge _ _ _ _).mp hc with h | h
          · exact absurd h hnc
          · rw [h]; exact (hW.mem_push _ _ _).mpr (Or.inl rfl) }

theorem growStep_consg (W : WorkList) (s : State) (t : Nat) (xs : List Nat) :
    (growStep W s t xs).consg = s.consg := by
  unfold growStep
  simp only
  split <;> rfl

theorem growStep_pts (W : WorkList) (s : State) (t : Nat) (xs : List Nat) :
    (growStep W s t xs).pts = ptsInsertAll s.pts t xs := by
  unfold growStep
  simp only
  split <;> rfl

theorem growStep_ext (W : WorkList) (hW : W.Lawful) (s : State) (t : Nat) (xs : List Nat) :
    Ext s (growStep W s t xs) where
  nodes := by rw [growStep_consg]
  addr := by rw [growStep_consg]
  store := by rw [growStep_consg]
  load := by rw [growStep_consg]
  gep := by rw [growStep_consg]
  copy_mono := by rw [growStep_consg]; exact fun _ h => h
  pts_mono := by
    intro n x h
    rw [growStep_pts]
    exact (mem_ptsInsertAll _ _ _ _ _).mpr (Or.inl h)
  wl_mono := by
    intro n h
    unfold growStep
    simp only
    split
    · exact (hW.mem_push _ _ _).mpr (Or.inr h)
    · exact h
  pts_push := by
    intro n hne
    rw [growStep_pts] at hne
    by_cases hn : n = t
    · subst hn
      have hlen : (s.pts n).length < (ptsInsertAll s.pts n xs n).length := by
        rcases setInsertAll_length xs (s.pts n) with h | h
        · exact absurd (by simp [ptsInsertAll, ptsSet, h]) hne
        · simpa [ptsInsertAll, ptsSet] using h
      unfold growStep
      simp only
      rw [if_pos hlen]
      exact (hW.mem_push _ _ _).mpr (Or.inl rfl)
    · exact absurd (ptsSet_other _ _ _ _ hn) hne
  copy_push := by
    intro e h1 h2
    rw [growStep_consg] at h1
    exact absurd h1 h2

theorem initNode_ext (W : WorkList) (hW : W.Lawful) (s : State) (n : Nat) :
    Ext s (initNode W s n) :=
  foldl_inv (fun b => Ext s b) _ _ _ (Ext.ext_refl s)
    (fun b a _ hb => hb.ext_trans (addrStep_ext W hW b a))

theorem initPass_ext (W : WorkList) (hW : W.Lawful) (s : State) : Ext s (initPass W s) :=
  foldl_inv (fun b => Ext s b) _ _ _ (Ext.ext_refl s)
    (fun b a _ hb => hb.ext_trans (initNode_ext W hW b a))

theorem objectStep_ext (W : WorkList) (hW : W.Lawful) (p : Nat) (s : State) (o : Nat) :
    Ext s (objectStep W p s o) := by
  unfold objectStep
  simp only
  have h1 : Ext s ((getStoreInEdges s.consg p).foldl (storeStep W o) s) :=
    foldl_inv (fun b => Ext s b) _ _ _ (Ext.ext_refl s)
      (fun b a _ hb => hb.ext_trans (storeStep_ext W hW o b a))
  exact foldl_inv (fun b => Ext s b) _ _ _ h1
    (fun b a _ hb => hb.ext_trans (loadStep_ext W hW o b a))

theorem storeLoadPhase_ext (W : WorkList) (hW : W.Lawful) (p : Nat) (s : State) :
    Ext s (storeLoadPhase W p s) :=
  foldl_inv (fun b => Ext s b) _ _ _ (Ext.ext_refl s)
    (fun b a _ hb => hb.ext_trans (objectStep_ext W hW p b a))

theorem copyPhase_ext (W : WorkList) (hW : W.Lawful) (p : Nat) (s : State) :
    Ext s (copyPhase W p s) :=
  foldl_inv (fun b => Ext s b) _ _ _ (Ext.ext_refl s)
    (fun b a _ hb => hb.ext_trans (by rw [copyStep_eq]; exact growStep_ext W hW b _ _))

theorem gepPhase_ext (W : WorkList) (hW : W.Lawful) (rf : Nat → Nat → Nat) (p : Nat)
    (s : State) : Ext s (gepPhase W rf p s) :=
  foldl_inv (fun b => Ext s b) _ _ _ (Ext.ext_refl s)
    (fun b a _ hb => hb.ext_trans (by rw [gepStep_eq]; exact growStep_ext W hW b _ _))

theorem processNode_ext (W : WorkList) (hW : W.Lawful) (rf : Nat → Nat → Nat) (p : Nat)
    (s : State) : Ext s (processNode W rf p s) :=
  ((storeLoadPhase_ext W hW p s).ext_trans (copyPhase_ext W hW p _)).ext_trans
    (gepPhase_ext W hW rf p _)

/-! ## Every fact of a reachable state is derivable from the input graph -/

theorem initState_sound (g : ConstraintGraph) (rf : Nat → Nat → Nat) :
    Sound g rf (initState g) where
  nodes := rfl
  addr := rfl
  store := rfl
  load := rfl
  gep := rfl
  pts := fun n x h => by simp [initState, emptyPts] at h
  copy := fun e h => Derivable.copyEdge e h
  sorted := fun n => by simp [initState, emptyPts]

theorem Sound.sound_setWorklist {g : ConstraintGraph} {rf : Nat → Nat → Nat} {s : State}
    (h : Sound g rf s) (wl : List Nat) : Sound g rf { s with worklist := wl } :=
  ⟨h.nodes, h.addr, h.store, h.load, h.gep, h.pts, h.copy, h.sorted⟩

theorem ptsInsertAll_sorted (pts : PTS) (t : Nat) (xs : List Nat)
    (h : ∀ n, (pts n).Pairwise (· < ·)) (n : Nat) :
    (ptsInsertAll pts t xs n).Pairwise (· < ·) := by
  unfold ptsInsertAll ptsSet
  split
  · exact setInsertAll_sorted _ _ (h t)
  · exact h n

theorem addrStep_sound (W : WorkList) (g : ConstraintGraph) (rf : Nat → Nat → Nat)
    (s : State) (e : ConstraintEdge) (hs : Sound g rf s) (he : e ∈ g.addrEdges)
    (hn : e.dst ∈ g.nodes) : Sound g rf (addrStep W s e) where
  nodes := hs.nodes
  addr := hs.addr
  store := hs.store
  load := hs.load
  gep := hs.gep
  pts := by
    intro n x hx
    rcases (mem_ptsInsert _ _ _ _ _).mp hx with h | ⟨h1, h2⟩
    · exact hs.pts n x h
    · rw [h1, h2]; exact Derivable.addr e he hn
  copy := hs.copy
  sorted := by
    intro n
    show (ptsSet s.pts e.dst (setInsert e.src (s.pts e.dst)) n).Pairwise (· < ·)
    unfold ptsSet
    split
    · exact setInsert_sorted _ _ (hs.sorted _)
    · exact hs.sorted n

theorem addCopy_sound (g : ConstraintGraph) (rf : Nat → Nat → Nat) (s : State) (a b : Nat)
    (wl : List Nat) (hs : Sound g rf s) (hd : Derivable g rf (Fact.copy a b)) :
    Sound g rf { s with consg := addCopyCGEdge s.consg a b, worklist := wl } := by
  have hg := addCopy_grows s a b wl
  refine ⟨hg.nodes.trans hs.nodes, hg.addr.trans hs.addr, hg.store.trans hs.store,
    hg.load.trans hs.load, hg.gep.trans hs.gep, hs.pts, ?_, hs.sorted⟩
  intro e he
  rcases (mem_addCopyCGEdge _ _ _ _).mp he with h | h
  · exact hs.copy e h
  · rw [h]; exact hd

theorem storeStep_sound (W : WorkList) (g : ConstraintGraph) (rf : Nat → Nat → Nat)
    (o : Nat) (s : State) (e : ConstraintEdge) (hs : Sound g rf s) (he : e ∈ g.storeEdges)
    (ho : o ∈ s.pts e.dst) : Sound g rf (storeStep W o s e) := by
  unfold storeStep
  simp only
  split
  · exact hs
  · exact addCopy_sound g rf s _ _ _ hs (Derivable.store e o he (hs.pts _ _ ho))

theorem loadStep_sound (W : WorkList) (g : ConstraintGraph) (rf : Nat → Nat → Nat)
    (o : Nat) (s : State) (e : ConstraintEdge) (hs : Sound g rf s) (he : e ∈ g.loadEdges)
    (ho : o ∈ s.pts e.src) : Sound g rf (loadStep W o s e) := by
  unfold loadStep
  simp only
  split
  · exact hs
  · exact addCopy_sound g rf s _ _ _ hs (Derivable.load e o he (hs.pts _ _ ho))

theorem growStep_sound (W : WorkList) (g : ConstraintGraph) (rf : Nat → Nat → Nat)
    (s : State) (t : Nat) (xs : List Nat) (hs : Sound g rf s)
    (hx : ∀ x ∈ xs, Derivable g rf (Fact.pts t x)) : Sound g rf (growStep W s t xs) where
  nodes := by rw [growStep_consg]; exact hs.nodes
  addr := by rw [growStep_consg]; exact hs.addr
  store := by rw [growStep_consg]; exact hs.store
  load := by rw [growStep_consg]; exact hs.load
  gep := by rw [growStep_consg]; exact hs.gep
  pts := by
    intro n x h
    rw [growStep_pts] at h
    rcases (mem_ptsInsertAll _ _ _ _ _).mp h with h1 | ⟨h1, h2⟩
    · exact hs.pts n x h1
    · rw [h1]; exact hx x h2
  copy := by rw [growStep_consg]; exact hs.copy
  sorted := by
    intro n
    rw [growStep_pts]
    exact ptsInsertAll_sorted _ _ _ hs.sorted n

theorem copyStep_sound (W : WorkList) (g : ConstraintGraph) (rf : Nat → Nat → Nat)
    (p : Nat) (s : State) (e : ConstraintEdge) (hs : Sound g rf s)
    (he : e ∈ s.consg.copyEdges) (hp : e.src = p) : Sound g rf (copyStep W p s e) := by
  rw [copyStep_eq]
  apply growStep_sound W g rf s _ _ hs
  intro x hx
  exact Derivable.copy e.src e.dst x (hs.copy e he) (hs.pts _ _ (by rw [hp]; exact hx))

theorem gepStep_sound (W : WorkList) (g : ConstraintGraph) (rf : Nat → Nat → Nat)
    (p : Nat) (s : State) (e : GepCGEdge) (hs : Sound g rf s)
    (he : e ∈ g.gepEdges) (hp : e.src = p) : Sound g rf (gepStep W rf p s e) := by
  rw [gepStep_eq]
  apply growStep_sound W g rf s _ _ hs
  intro x hx
  obtain ⟨o, ho, rfl⟩ := List.mem_map.mp hx
  exact Derivable.gep e o he (hs.pts _ _ (by rw [hp]; exact ho))

theorem initNode_sound (W : WorkList) (g : ConstraintGraph) (rf : Nat → Nat → Nat)
    (s : State) (n : Nat) (hs : Sound g rf s) (hn : n ∈ g.nodes) :
    Sound g rf (initNode W s n) := by
  unfold initNode
  apply foldl_inv (fun b => Sound g rf b) _ _ _ hs
  intro b a ha hb
  simp only [getAddrInEdges, List.mem_filter, beq_iff_eq] at ha
  exact addrStep_sound W g rf b a hb (hs.addr ▸ ha.1) (ha.2 ▸ hn)

theorem initPass_sound (W : WorkList) (g : ConstraintGraph) (rf : Nat → Nat → Nat)
    (s : State) (hs : Sound g rf s) : Sound g rf (initPass W s) := by
  unfold initPass
  apply foldl_inv (fun b => Sound g rf b) _ _ _ hs
  intro b a ha hb
  exact initNode_sound W g rf b a hb (hs.nodes ▸ ha)

theorem objectStep_pts (W : WorkList) (p : Nat) (s : State) (o : Nat) :
    (objectStep W p s o).pts = s.pts := by
  unfold objectStep
  simp only
  have h1 : ((getStoreInEdges s.consg p).foldl (storeStep W o) s).pts = s.pts :=
    foldl_inv (fun b => b.pts = s.pts) _ _ _ rfl
      (fun b a _ hb => (storeStep_pts W o b a).trans hb)
  exact foldl_inv (fun b => b.pts = s.pts) _ _ _ h1
    (fun b a _ hb => (loadStep_pts W o b a).trans hb)

theorem storeLoadPhase_pts (W : WorkList) (p : Nat) (s : State) :
    (storeLoadPhase W p s).pts = s.pts :=
  foldl_inv (fun b => b.pts = s.pts) _ _ _ rfl
    (fun b a _ hb => (objectStep_pts W p b a).trans hb)

theorem objectStep_sound (W : WorkList) (g : ConstraintGraph) (rf : Nat → Nat → Nat)
    (p : Nat) (s : State) (o : Nat) (hs : Sound g rf s) (ho : o ∈ s.pts p) :
    Sound g rf (objectStep W p s o) := by
  unfold objectStep
  simp only
  have h1 : Sound g rf ((getStoreInEdges s.consg p).foldl (storeStep W o) s) ∧
      ((getStoreInEdges s.consg p).foldl (storeStep W o) s).pts = s.pts := by
    apply foldl_inv (fun b => Sound g rf b ∧ b.pts = s.pts) _ _ _ ⟨hs, rfl⟩
    intro b a ha hb
    simp only [getStoreInEdges, List.mem_filter, beq_iff_eq] at ha
    refine ⟨storeStep_sound W g rf o b a hb.1 (hs.store ▸ ha.1) ?_,
      (storeStep_pts W o b a).trans hb.2⟩
    rw [hb.2, ha.2]; exact ho
  refine (foldl_inv (fun b => Sound g rf b ∧ b.pts = s.pts) _ _ _ h1 ?_).1
  intro b a ha hb
  simp only [getLoadOutEdges, List.mem_filter, beq_iff_eq] at ha
  refine ⟨loadStep_sound W g rf o b a hb.1 (by rw [← h1.1.load]; exact ha.1) ?_,
    (loadStep_pts W o b a).trans hb.2⟩
  rw [hb.2, ha.2]; exact ho

theorem storeLoadPhase_sound (W : WorkList) (g : ConstraintGraph) (rf : Nat → Nat → Nat)
    (p : Nat) (s : State) (hs : Sound g rf s) : Sound g rf (storeLoadPhase W p s) := by
  unfold storeLoadPhase
  refine (foldl_inv (fun b => Sound g rf b ∧ b.pts = s.pts) _ _ _ ⟨hs, rfl⟩ ?_).1
  intro b a ha hb
  exact ⟨objectStep_sound W g rf p b a hb.1 (by rw [hb.2]; exact ha),
    (objectStep_pts W p b a).trans hb.2⟩

theorem copyStep_consg (W : WorkList) (p : Nat) (s : State) (e : ConstraintEdge) :
    (copyStep W p s e).consg = s.consg := by
  rw [copyStep_eq, growStep_consg]

theorem gepStep_consg (W : WorkList) (rf : Nat → Nat → Nat) (p : Nat) (s : State)
    (e : GepCGEdge) : (gepStep W rf p s e).consg = s.consg := by
  rw [gepStep_eq, growStep_consg]

theorem copyPhase_consg (W : WorkList) (p : Nat) (s : State) :
    (copyPhase W p s).consg = s.consg :=
  foldl_inv (fun b => b.consg = s.consg) _ _ _ rfl
    (fun b a _ hb => (copyStep_consg W p b a).trans hb)

theorem gepPhase_consg (W : WorkList) (rf : Nat → Nat → Nat) (p : Nat) (s : State) :
    (gepPhase W rf p s).consg = s.consg :=
  foldl_inv (fun b => b.consg = s.consg) _ _ _ rfl
    (fun b a _ hb => (gepStep_consg W rf p b a).trans hb)

theorem copyPhase_sound (W : WorkList) (g : ConstraintGraph) (rf : Nat → Nat → Nat)
    (p : Nat) (s : State) (hs : Sound g rf s) : Sound g rf (copyPhase W p s) := by
  unfold copyPhase
  refine (foldl_inv (fun b => Sound g rf b ∧ b.consg = s.consg) _ _ _ ⟨hs, rfl⟩ ?_).1
  intro b a ha hb
  simp only [getCopyOutEdges, List.mem_filter, beq_iff_eq] at ha
  exact ⟨copyStep_sound W g rf p b a hb.1 (by rw [hb.2]; exact ha.1) ha.2,
    (copyStep_consg W p b a).trans hb.2⟩

theorem gepPhase_sound (W : WorkList) (g : ConstraintGraph) (rf : Nat → Nat → Nat)
    (p : Nat) (s : State) (hs : Sound g rf s) : Sound g rf (gepPhase W rf p s) := by
  unfold gepPhase
  apply foldl_inv (fun b => Sound g rf b) _ _ _ hs
  intro b a ha hb
  simp only [getGepOutEdges, List.mem_filter, beq_iff_eq] at ha
  exact gepStep_sound W g rf p b a hb (hs.gep ▸ ha.1) ha.2

theorem processNode_sound (W : WorkList) (g : ConstraintGraph) (rf : Nat → Nat → Nat)
    (p : Nat) (s : State) (hs : Sound g rf s) : Sound g rf (processNode W rf p s) :=
  gepPhase_sound W g rf p _ (copyPhase_sound W g rf p _ (storeLoadPhase_sound W g rf p s hs))

/-! ## The frame holds for every queue discipline -/

theorem addrStep_grows (W : WorkList) (s : State) (e : ConstraintEdge) :
    Grows s (addrStep W s e) :=
  ⟨rfl, rfl, rfl, rfl, rfl, fun _ h => h,
   fun _ _ h => (mem_ptsInsert _ _ _ _ _).mpr (Or.inl h)⟩

theorem storeStep_grows (W : WorkList) (o : Nat) (s : State) (e : ConstraintEdge) :
    Grows s (storeStep W o s e) := by
  unfold storeStep
  simp only
  split
  · exact Grows.grows_refl s
  · exact addCopy_grows s e.src o _

theorem loadStep_grows (W : WorkList) (o : Nat) (s : State) (e : ConstraintEdge) :
    Grows s (loadStep W o s e) := by
  unfold loadStep
  simp only
  split
  · exact Grows.grows_refl s
  · exact addCopy_grows s o e.dst _

theorem growStep_grows (W : WorkList) (s : State) (t : Nat) (xs : List Nat) :
    Grows s (growStep W s t xs) where
  nodes := by rw [growStep_consg]
  addr := by rw [growStep_consg]
  store := by rw [growStep_consg]
  load := by rw [growStep_consg]
  gep := by rw [growStep_consg]
  copy_mono := by rw [growStep_consg]; exact fun _ h => h
  pts_mono := by
    intro n x h
    rw [growStep_pts]
    exact (mem_ptsInsertAll _ _ _ _ _).mpr (Or.inl h)

theorem copyStep_grows (W : WorkList) (p : Nat) (s : State) (e : ConstraintEdge) :
    Grows s (copyStep W p s e) := by
  rw [copyStep_eq]; exact growStep_grows W s _ _

theorem gepStep_grows (W : WorkList) (rf : Nat → Nat → Nat) (p : Nat) (s : State)
    (e : GepCGEdge) : Grows s (gepStep W rf p s e) := by
  rw [gepStep_eq]; exact growStep_grows W s _ _

theorem initNode_grows (W : WorkList) (s : State) (n : Nat) : Grows s (initNode W s n) :=
  foldl_inv (fun b => Grows s b) _ _ _ (Grows.grows_refl s)
    (fun b a _ hb => hb.grows_trans (addrStep_grows W b a))

theorem initPass_grows (W : WorkList) (s : State) : Grows s (initPass W s) :=
  foldl_inv (fun b => Grows s b) _ _ _ (Grows.grows_refl s)
    (fun b a _ hb => hb.grows_trans (initNode_grows W b a))

theorem objectStep_grows (W : WorkList) (p : Nat) (s : State) (o : Nat) :
    Grows s (objectStep W p s o) := by
  unfold objectStep
  simp only
  have h1 : Grows s ((getStoreInEdges s.consg p).foldl (storeStep W o) s) :=
    foldl_inv (fun b => Grows s b) _ _ _ (Grows.grows_refl s)
      (fun b a _ hb => hb.grows_trans (storeStep_grows W o b a))
  exact foldl_inv (fun b => Grows s b) _ _ _ h1
    (fun b a _ hb => hb.grows_trans (loadStep_grows W o b a))

theorem storeLoadPhase_grows (W : WorkList) (p : Nat) (s : State) :
    Grows s (storeLoadPhase W p s) :=
  foldl_inv (fun b => Grows s b) _ _ _ (Grows.grows_refl s)
    (fun b a _ hb => hb.grows_trans (objectStep_grows W p b a))

theorem copyPhase_grows (W : WorkList) (p : Nat) (s : State) : Grows s (copyPhase W p s) :=
  foldl_inv (fun b => Grows s b) _ _ _ (Grows.grows_refl s)
    (fun b a _ hb => hb.grows_trans (copyStep_grows W p b a))

theorem gepPhase_grows (W : WorkList) (rf : Nat → Nat → Nat) (p : Nat) (s : State) :
    Grows s (gepPhase W rf p s) :=
  foldl_inv (fun b => Grows s b) _ _ _ (Grows.grows_refl s)
    (fun b a _ hb => hb.grows_trans (gepStep_grows W rf p b a))

theorem processNode_grows (W : WorkList) (rf : Nat → Nat → Nat) (p : Nat) (s : State) :
    Grows s (processNode W rf p s) :=
  ((storeLoadPhase_grows W p s).grows_trans (copyPhase_grows W p _)).grows_trans (gepPhase_grows W rf p _)

theorem mainLoop_grows (W : WorkList) (rf : Nat → Nat → Nat) :
    ∀ (fuel : Nat) (s s2 : State), mainLoop W rf fuel s = some s2 → Grows s s2 := by
  intro fuel
  induction fuel with
  | zero =>
    intro s s2 h
    unfold mainLoop at h
    split at h
    · cases h; exact Grows.grows_refl s
    · cases h
  | succ k ih =>
    intro s s2 h
    unfold mainLoop at h
    split at h
    · cases h; exact Grows.grows_refl s
    · rename_i p rest hpop
      exact ((Grows.grows_setWorklist s rest).grows_trans (processNode_grows W rf p _)).grows_trans (ih _ _ h)

/-! ## What each phase achieves -/

theorem initNode_achieves (W : WorkList) (s : State) (n : Nat) :
    ∀ e ∈ s.consg.addrEdges, e.dst = n → e.src ∈ (initNode W s n).pts n := by
  intro e he hd
  have hmem : e ∈ getAddrInEdges s.consg n := by
    simp only [getAddrInEdges, List.mem_filter, beq_iff_eq]
    exact ⟨he, hd⟩
  have := foldl_achieves (fun _ => True) (fun (a : ConstraintEdge) b => a.src ∈ b.pts a.dst)
    (addrStep W) (getAddrInEdges s.consg n) s trivial (fun _ _ _ _ => trivial)
    (fun b a _ _ => (mem_ptsInsert _ _ _ _ _).mpr (Or.inr ⟨rfl, rfl⟩))
    (fun b a a2 _ _ hq => (addrStep_grows W b a2).pts_mono _ _ hq) e hmem
  simp only [hd] at this
  exact this

theorem initPass_achieves (W : WorkList) (s : State) :
    ∀ e ∈ s.consg.addrEdges, e.dst ∈ s.consg.nodes → e.src ∈ (initPass W s).pts e.dst := by
  intro e he hn
  have := foldl_achieves (fun b => Grows s b)
    (fun (n : Nat) b => ∀ e ∈ s.consg.addrEdges, e.dst = n → e.src ∈ b.pts n)
    (initNode W) s.consg.nodes s (Grows.grows_refl s)
    (fun b a _ hb => hb.grows_trans (initNode_grows W b a))
    (fun b a _ hb e he hd => initNode_achieves W b a e (hb.addr ▸ he) hd)
    (fun b a a2 _ _ hq e he hd => (initNode_grows W b a2).pts_mono _ _ (hq e he hd))
    e.dst hn
  exact this e he rfl

theorem storeStep_achieves (W : WorkList) (o : Nat) (s : State) (e : ConstraintEdge) :
    (⟨e.src, o⟩ : ConstraintEdge) ∈ (storeStep W o s e).consg.copyEdges := by
  unfold storeStep
  simp only
  split
  · rename_i h
    exact (hasCopyOut_iff _ _ _).mp h
  · exact (mem_addCopyCGEdge _ _ _ _).mpr (Or.inr rfl)

theorem loadStep_achieves (W : WorkList) (o : Nat) (s : State) (e : ConstraintEdge) :
    (⟨o, e.dst⟩ : ConstraintEdge) ∈ (loadStep W o s e).consg.copyEdges := by
  unfold loadStep
  simp only
  split
  · rename_i h
    exact (hasCopyIn_iff _ _ _).mp h
  · exact (mem_addCopyCGEdge _ _ _ _).mpr (Or.inr rfl)

theorem objectStep_achieves (W : WorkList) (p : Nat) (s : State) (o : Nat) :
    (∀ st ∈ s.consg.storeEdges, st.dst = p →
      (⟨st.src, o⟩ : ConstraintEdge) ∈ (objectStep W p s o).consg.copyEdges) ∧
    (∀ ld ∈ s.consg.loadEdges, ld.src = p →
      (⟨o, ld.dst⟩ : ConstraintEdge) ∈ (objectStep W p s o).consg.copyEdges) := by
  unfold objectStep
  simp only
  have hg1 : Grows s ((getStoreInEdges s.consg p).foldl (storeStep W o) s) :=
    foldl_inv (fun b => Grows s b) _ _ _ (Grows.grows_refl s)
      (fun b a _ hb => hb.grows_trans (storeStep_grows W o b a))
  have h1 := foldl_achieves (fun _ => True)
    (fun (a : ConstraintEdge) b => (⟨a.src, o⟩ : ConstraintEdge) ∈ b.consg.copyEdges)
    (storeStep W o) (getStoreInEdges s.consg p) s trivial (fun _ _ _ _ => trivial)
    (fun b a _ _ => storeStep_achieves W o b a)
    (fun b a a2 _ _ hq => (storeStep_grows W o b a2).copy_mono _ hq)
  have h2 := foldl_achieves (fun _ => True)
    (fun (a : ConstraintEdge) b => (⟨o, a.dst⟩ : ConstraintEdge) ∈ b.consg.copyEdges)
    (loadStep W o)
    (getLoadOutEdges ((getStoreInEdges s.consg p).foldl (storeStep W o) s).consg p)
    ((getStoreInEdges s.consg p).foldl (storeStep W o) s) trivial (fun _ _ _ _ => trivial)
    (fun b a _ _ => loadStep_achieves W o b a)
    (fun b a a2 _ _ hq => (loadStep_grows W o b a2).copy_mono _ hq)
  have hg2 : Grows ((getStoreInEdges s.consg p).foldl (storeStep W o) s)
      ((getLoadOutEdges ((getStoreInEdges s.consg p).foldl (storeStep W o) s).consg p).foldl
        (loadStep W o) ((getStoreInEdges s.consg p).foldl (storeStep W o) s)) :=
    foldl_inv (fun b => Grows _ b) _ _ _ (Grows.grows_refl _)
      (fun b a _ hb => hb.grows_trans (loadStep_grows W o b a))
  constructor
  · intro st hst hd
    apply hg2.copy_mono
    apply h1 st
    simp only [getStoreInEdges, List.mem_filter, beq_iff_eq]
    exact ⟨hst, hd⟩
  · intro ld hld hsrc
    apply h2 ld
    simp only [getLoadOutEdges, List.mem_filter, beq_iff_eq]
    exact ⟨hg1.load ▸ hld, hsrc⟩

theorem storeLoadPhase_achieves (W : WorkList) (p : Nat) (s : State) :
    ∀ o ∈ s.pts p,
      (∀ st ∈ s.consg.storeEdges, st.dst = p →
        (⟨st.src, o⟩ : ConstraintEdge) ∈ (storeLoadPhase W p s).consg.copyEdges) ∧
      (∀ ld ∈ s.consg.loadEdges, ld.src = p →
        (⟨o, ld.dst⟩ : ConstraintEdge) ∈ (storeLoadPhase W p s).consg.copyEdges) := by
  exact foldl_achieves (fun b => Grows s b)
    (fun (o : Nat) b =>
      (∀ st ∈ s.consg.storeEdges, st.dst = p →
        (⟨st.src, o⟩ : ConstraintEdge) ∈ b.consg.copyEdges) ∧
      (∀ ld ∈ s.consg.loadEdges, ld.src = p →
        (⟨o, ld.dst⟩ : ConstraintEdge) ∈ b.consg.copyEdges))
    (objectStep W p) (s.pts p) s (Grows.grows_refl s)
    (fun b a _ hb => hb.grows_trans (objectStep_grows W p b a))
    (fun b a _ hb =>
      ⟨fun st hst hd => (objectStep_achieves W p b a).1 st (hb.store ▸ hst) hd,
       fun ld hld hd => (objectStep_achieves W p b a).2 ld (hb.load ▸ hld) hd⟩)
    (fun b a a2 _ _ hq =>
      ⟨fun st hst hd => (objectStep_grows W p b a2).copy_mono _ (hq.1 st hst hd),
       fun ld hld hd => (objectStep_grows W p b a2).copy_mono _ (hq.2 ld hld hd)⟩)

theorem copyPhase_achieves (W : WorkList) (p : Nat) (s : State) :
    ∀ c ∈ s.consg.copyEdges, c.src = p → ∀ x ∈ s.pts p, x ∈ (copyPhase W p s).pts c.dst := by
  intro c hc hp
  have hmem : c ∈ getCopyOutEdges s.consg p := by
    simp only [getCopyOutEdges, List.mem_filter, beq_iff_eq]
    exact ⟨hc, hp⟩
  exact foldl_achieves (fun b => Grows s b)
    (fun (c : ConstraintEdge) b => ∀ x ∈ s.pts p, x ∈ b.pts c.dst)
    (copyStep W p) (getCopyOutEdges s.consg p) s (Grows.grows_refl s)
    (fun b a _ hb => hb.grows_trans (copyStep_grows W p b a))
    (fun b a _ hb x hx => by
      rw [copyStep_eq, growStep_pts]
      exact (mem_ptsInsertAll _ _ _ _ _).mpr (Or.inr ⟨rfl, hb.pts_mono _ _ hx⟩))
    (fun b a a2 _ _ hq x hx => (copyStep_grows W p b a2).pts_mono _ _ (hq x hx))
    c hmem

theorem gepPhase_achieves (W : WorkList) (rf : Nat → Nat → Nat) (p : Nat) (s : State) :
    ∀ ge ∈ s.consg.gepEdges, ge.src = p →
      ∀ o ∈ s.pts p, rf o ge.fld ∈ (gepPhase W rf p s).pts ge.dst := by
  intro ge hge hp
  have hmem : ge ∈ getGepOutEdges s.consg p := by
    simp only [getGepOutEdges, List.mem_filter, beq_iff_eq]
    exact ⟨hge, hp⟩
  exact foldl_achieves (fun b => Grows s b)
    (fun (ge : GepCGEdge) b => ∀ o ∈ s.pts p, rf o ge.fld ∈ b.pts ge.dst)
    (gepStep W rf p) (getGepOutEdges s.consg p) s (Grows.grows_refl s)
    (fun b a _ hb => hb.grows_trans (gepStep_grows W rf p b a))
    (fun b a _ hb o ho => by
      rw [gepStep_eq, growStep_pts]
      exact (mem_ptsInsertAll _ _ _ _ _).mpr
        (Or.inr ⟨rfl, List.mem_map.mpr ⟨o, hb.pts_mono _ _ ho, rfl⟩⟩))
    (fun b a a2 _ _ hq o ho => (gepStep_grows W rf p b a2).pts_mono _ _ (hq o ho))
    ge hmem

/-! ## The coverage invariant of the main loop -/

theorem initPass_coverage (W : WorkList) (hW : W.Lawful) (rf : Nat → Nat → Nat)
    (g : ConstraintGraph) : Coverage rf (initPass W (initState g)) := by
  intro n hn
  have hE := initPass_ext W hW (initState g)
  have hpts : (initPass W (initState g)).pts n = [] := by
    by_contra h
    exact hn (hE.pts_push n h)
  refine ⟨?_, ?_, ?_, ?_⟩ <;> intro _ _ _ x hx <;> rw [hpts] at hx <;> cases hx

theorem processNode_coverage (W : WorkList) (hW : W.Lawful) (rf : Nat → Nat → Nat)
    (s : State) (p : Nat) (rest : List Nat) (hc : Coverage rf s)
    (hpop : W.pop s.worklist = some (p, rest)) :
    Coverage rf (processNode W rf p { s with worklist := rest }) := by
  intro n hn
  have E01 := storeLoadPhase_ext W hW p { s with worklist := rest }
  have E12 := copyPhase_ext W hW p (storeLoadPhase W p { s with worklist := rest })
  have E23 := gepPhase_ext W hW rf p
    (copyPhase W p (storeLoadPhase W p { s with worklist := rest }))
  have E02 := E01.ext_trans E12
  have E03 : Ext { s with worklist := rest } (processNode W rf p { s with worklist := rest }) :=
    E02.ext_trans E23
  have E13 := E12.ext_trans E23
  have hpts : (processNode W rf p { s with worklist := rest }).pts n = s.pts n := by
    by_contra h
    exact hn (E03.pts_push n h)
  have hcopy : ∀ c ∈ (processNode W rf p { s with worklist := rest }).consg.copyEdges,
      c.src = n → c ∈ s.consg.copyEdges := by
    intro c hc1 hsrc
    by_contra h
    exact hn (hsrc ▸ E03.copy_push c hc1 h)
  by_cases hnp : n = p
  · subst hnp
    have A1 := storeLoadPhase_achieves W n { s with worklist := rest }
    have A2 := copyPhase_achieves W n (storeLoadPhase W n { s with worklist := rest })
    have A3 := gepPhase_achieves W rf n
      (copyPhase W n (storeLoadPhase W n { s with worklist := rest }))
    refine ⟨?_, ?_, ?_, ?_⟩
    · intro st hst hd o ho
      rw [hpts] at ho
      exact E13.copy_mono _ ((A1 o ho).1 st (E03.store ▸ hst) hd)
    · intro ld hld hd o ho
      rw [hpts] at ho
      exact E13.copy_mono _ ((A1 o ho).2 ld (E03.load ▸ hld) hd)
    · intro c hc1 hsrc x hx
      rw [hpts] at hx
      have h1 : c ∈ (storeLoadPhase W n { s with worklist := rest }).consg.copyEdges :=
        E01.copy_mono _ (hcopy c hc1 hsrc)
      exact E23.pts_mono _ _ (A2 c h1 hsrc x (E01.pts_mono _ _ hx))
    · intro ge hge hsrc o ho
      rw [hpts] at ho
      exact A3 ge (E23.gep ▸ hge) hsrc o (E02.pts_mono _ _ ho)
  · have hnw : n ∉ s.worklist := by
      intro h
      rcases hW.pop_rest _ _ _ hpop n h with h1 | h1
      · exact hnp h1
      · exact hn (E03.wl_mono n h1)
    obtain ⟨S1, S2, S3, S4⟩ := hc n hnw
    refine ⟨?_, ?_, ?_, ?_⟩
    · intro st hst hd o ho
      rw [hpts] at ho
      exact E03.copy_mono _ (S1 st (E03.store ▸ hst) hd o ho)
    · intro ld hld hd o ho
      rw [hpts] at ho
      exact E03.copy_mono _ (S2 ld (E03.load ▸ hld) hd o ho)
    · intro c hc1 hsrc x hx
      rw [hpts] at hx
      exact E03.pts_mono _ _ (S3 c (hcopy c hc1 hsrc) hsrc x hx)
    · intro ge hge hsrc o ho
      rw [hpts] at ho
      exact E03.pts_mono _ _ (S4 ge (E03.gep ▸ hge) hsrc o ho)

theorem mainLoop_inv (W : WorkList) (hW : W.Lawful) (rf : Nat → Nat → Nat) (P : State → Prop)
    (hstep : ∀ s p rest, P s → W.pop s.worklist = some (p, rest) →
      P (processNode W rf p { s with worklist := rest })) :
    ∀ (fuel : Nat) (s s2 : State), P s → mainLoop W rf fuel s = some s2 →
      P s2 ∧ s2.worklist = [] := by
  intro fuel
  induction fuel with
  | zero =>
    intro s s2 hP h
    unfold mainLoop at h
    split at h
    · rename_i hpop
      cases h
      exact ⟨hP, (hW.pop_none _).mp hpop⟩
    · cases h
  | succ k ih =>
    intro s s2 hP h
    unfold mainLoop at h
    split at h
    · rename_i hpop
      cases h
      exact ⟨hP, (hW.pop_none _).mp hpop⟩
    · rename_i p rest hpop
      exact ih _ _ (hstep s p rest hP hpop) h

theorem run_final (W : WorkList) (hW : W.Lawful) (rf : Nat → Nat → Nat) (fuel : Nat)
    (g : ConstraintGraph) (s : State) (h : runPointerAnalysis W rf fuel g = some s) :
    Final g rf s := by
  unfold runPointerAnalysis at h
  have hinv := mainLoop_inv W hW rf (fun b => Sound g rf b ∧ Coverage rf b)
    (fun b p rest hb hpop =>
      ⟨processNode_sound W g rf p _ (hb.1.sound_setWorklist rest),
       processNode_coverage W hW rf b p rest hb.2 hpop⟩)
    fuel _ s
    ⟨initPass_sound W g rf _ (initState_sound g rf), initPass_coverage W hW rf g⟩ h
  have hgrow := (initPass_grows W (initState g)).grows_trans (mainLoop_grows W rf fuel _ s h)
  refine ⟨hinv.1.1, hinv.2, ?_, hgrow, ?_⟩
  · intro n
    apply hinv.1.2 n
    rw [hinv.2]
    exact List.not_mem_nil n
  · intro e he hn
    exact (mainLoop_grows W rf fuel _ s h).pts_mono _ _
      (initPass_achieves W (initState g) e he hn)

/-- In a final state exactly the derivable facts hold. -/
theorem final_complete (g : ConstraintGraph) (rf : Nat → Nat → Nat) (s : State)
    (hf : Final g rf s) (f : Fact) (hd : Derivable g rf f) :
    match f with
    | Fact.pts n x => x ∈ s.pts n
    | Fact.copy a b => (⟨a, b⟩ : ConstraintEdge) ∈ s.consg.copyEdges := by
  induction hd with
  | addr e he hn => exact hf.seeded e he hn
  | copyEdge e he => exact hf.grows.copy_mono _ he
  | store e o he _ ih => exact (hf.sat e.dst).1 e (hf.sound.store ▸ he) rfl o ih
  | load e o he _ ih => exact (hf.sat e.src).2.1 e (hf.sound.load ▸ he) rfl o ih
  | copy a b x _ _ ih1 ih2 => exact (hf.sat a).2.2.1 ⟨a, b⟩ ih1 rfl x ih2
  | gep e o he _ ih => exact (hf.sat e.src).2.2.2 e (hf.sound.gep ▸ he) rfl o ih

theorem final_pts_iff (g : ConstraintGraph) (rf : Nat → Nat → Nat) (s : State)
    (hf : Final g rf s) (n x : Nat) : x ∈ s.pts n ↔ Derivable g rf (Fact.pts n x) :=
  ⟨hf.sound.pts n x, fun h => final_complete g rf s hf _ h⟩

theorem final_copy_iff (g : ConstraintGraph) (rf : Nat → Nat → Nat) (s : State)
    (hf : Final g rf s) (e : ConstraintEdge) :
    e ∈ s.consg.copyEdges ↔ Derivable g rf (Fact.copy e.src e.dst) :=
  ⟨hf.sound.copy e, fun h => final_complete g rf s hf _ h⟩

theorem derivable_solution (g : ConstraintGraph) (rf : Nat → Nat → Nat) (S : Nat → Set Nat)
    (hS : Solution g rf S) (f : Fact) (hd : Derivable g rf f) :
    match f with
    | Fact.pts n x => x ∈ S n
    | Fact.copy a b => S a ⊆ S b := by
  induction hd with
  | addr e he _ => exact hS.addr e he
  | copyEdge e he => exact hS.copy e he
  | store e o he _ ih => exact hS.store e he o ih
  | load e o he _ ih => exact hS.load e he o ih
  | copy a b x _ _ ih1 ih2 => exact ih1 ih2
  | gep e o he _ ih => exact hS.gep e he o ih

/-! ## Termination of the main loop -/

theorem derivable_closed (g : ConstraintGraph) (rf : Nat → Nat → Nat) (V : Finset Nat)
    (hC : Closed g rf V) (f : Fact) (hd : Derivable g rf f) :
    match f with
    | Fact.pts n x => n ∈ V ∧ x ∈ V
    | Fact.copy a b => a ∈ V ∧ b ∈ V := by
  induction hd with
  | addr e he _ => exact ⟨(hC.addr e he).2, (hC.addr e he).1⟩
  | copyEdge e he => exact hC.copy e he
  | store e o he _ ih => exact ⟨(hC.store e he).1, ih.2⟩
  | load e o he _ ih => exact ⟨ih.2, (hC.load e he).2⟩
  | copy a b x _ _ ih1 ih2 => exact ⟨ih1.2, ih2.2⟩
  | gep e o he _ ih => exact ⟨(hC.gep e he).2, hC.field _ _⟩

theorem Acct.acct_refl (V : Finset Nat) (s : State) : Acct V s s := Nat.le_refl _

theorem Acct.acct_trans {V : Finset Nat} {a b c : State} (h1 : Acct V a b) (h2 : Acct V b c) :
    Acct V a c := by
  unfold Acct at *
  omega

theorem addCopy_acct (W : WorkList) (hW : W.Lawful) (V : Finset Nat) (s : State) (a b : Nat)
    (x : Nat) (h : (⟨a, b⟩ : ConstraintEdge) ∉ s.consg.copyEdges) :
    Acct V s { s with consg := addCopyCGEdge s.consg a b, worklist := W.push s.worklist x } := by
  unfold Acct potential
  have h1 : (addCopyCGEdge s.consg a b).copyEdges = s.consg.copyEdges ++ [⟨a, b⟩] := by
    unfold addCopyCGEdge
    rw [if_neg h]
  have h2 : (s.consg.copyEdges ++ [(⟨a, b⟩ : ConstraintEdge)]).toFinset.card
      = s.consg.copyEdges.toFinset.card + 1 := by
    rw [List.toFinset_append]
    simp only [List.toFinset_cons, List.toFinset_nil, insert_emptyc_eq]
    rw [Finset.union_comm, ← Finset.insert_eq]
    exact Finset.card_insert_of_not_mem (by simpa using h)
  have h3 := hW.length_push s.worklist x
  simp only [h1, h2]
  omega

theorem storeStep_acct (W : WorkList) (hW : W.Lawful) (V : Finset Nat) (o : Nat) (s : State)
    (e : ConstraintEdge) : Acct V s (storeStep W o s e) := by
  unfold storeStep
  simp only
  split
  · exact Acct.acct_refl V s
  · rename_i h
    exact addCopy_acct W hW V s _ _ _ (fun hm => h ((hasCopyOut_iff _ _ _).mpr hm))

theorem loadStep_acct (W : WorkList) (hW : W.Lawful) (V : Finset Nat) (o : Nat) (s : State)
    (e : ConstraintEdge) : Acct V s (loadStep W o s e) := by
  unfold loadStep
  simp only
  split
  · exact Acct.acct_refl V s
  · rename_i h
    exact addCopy_acct W hW V s _ _ _ (fun hm => h ((hasCopyIn_iff _ _ _).mpr hm))

theorem sum_ptsSet (V : Finset Nat) (pts : PTS) (t : Nat) (l : List Nat) (ht : t ∈ V) :
    (∑ n ∈ V, (ptsSet pts t l n).length) + (pts t).length
      = (∑ n ∈ V, (pts n).length) + l.length := by
  rw [← Finset.add_sum_erase V (fun n => (ptsSet pts t l n).length) ht,
    ← Finset.add_sum_erase V (fun n => (pts n).length) ht]
  have h : ∑ n ∈ V.erase t, (ptsSet pts t l n).length = ∑ n ∈ V.erase t, (pts n).length := by
    apply Finset.sum_congr rfl
    intro n hn
    rw [ptsSet_other _ _ _ _ (Finset.ne_of_mem_erase hn)]
  simp only [h, ptsSet_same]
  omega

theorem growStep_acct (W : WorkList) (hW : W.Lawful) (V : Finset Nat) (s : State) (t : Nat)
    (xs : List Nat) (ht : t ∈ V) : Acct V s (growStep W s t xs) := by
  have hsum := sum_ptsSet V s.pts t (setInsertAll xs (s.pts t)) ht
  have hlen := setInsertAll_length xs (s.pts t)
  have hpush := hW.length_push s.worklist t
  have hsame : ptsInsertAll s.pts t xs t = setInsertAll xs (s.pts t) := ptsSet_same _ _ _
  unfold Acct potential growStep
  simp only [hsame]
  by_cases h : (setInsertAll xs (s.pts t)).length > (s.pts t).length
  · rw [if_pos h]
    simp only [ptsInsertAll]
    omega
  · rw [if_neg h]
    simp only [ptsInsertAll]
    rcases hlen with h1 | h1
    · have h2 : (setInsertAll xs (s.pts t)).length = (s.pts t).length := by rw [h1]
      omega
    · exact absurd h1 h

theorem objectStep_acct (W : WorkList) (hW : W.Lawful) (V : Finset Nat) (p : Nat) (s : State)
    (o : Nat) : Acct V s (objectStep W p s o) := by
  unfold objectStep
  simp only
  have h1 : Acct V s ((getStoreInEdges s.consg p).foldl (storeStep W o) s) :=
    foldl_inv (fun b => Acct V s b) _ _ _ (Acct.acct_refl V s)
      (fun b a _ hb => hb.acct_trans (storeStep_acct W hW V o b a))
  exact foldl_inv (fun b => Acct V s b) _ _ _ h1
    (fun b a _ hb => hb.acct_trans (loadStep_acct W hW V o b a))

theorem storeLoadPhase_acct (W : WorkList) (hW : W.Lawful) (V : Finset Nat) (p : Nat)
    (s : State) : Acct V s (storeLoadPhase W p s) :=
  foldl_inv (fun b => Acct V s b) _ _ _ (Acct.acct_refl V s)
    (fun b a _ hb => hb.acct_trans (objectStep_acct W hW V p b a))

theorem copyPhase_acct (W : WorkList) (hW : W.Lawful) (g : ConstraintGraph)
    (rf : Nat → Nat → Nat) (V : Finset Nat) (hC : Closed g rf V) (p : Nat) (s : State)
    (hs : Sound g rf s) : Acct V s (copyPhase W p s) := by
  unfold copyPhase
  apply foldl_inv (fun b => Acct V s b) _ _ _ (Acct.acct_refl V s)
  intro b a ha hb
  simp only [getCopyOutEdges, List.mem_filter, beq_iff_eq] at ha
  rw [copyStep_eq]
  exact hb.acct_trans (growStep_acct W hW V b _ _ (derivable_closed g rf V hC _ (hs.copy a ha.1)).2)

theorem gepPhase_acct (W : WorkList) (hW : W.Lawful) (g : ConstraintGraph)
    (rf : Nat → Nat → Nat) (V : Finset Nat) (hC : Closed g rf V) (p : Nat) (s : State)
    (hs : Sound g rf s) : Acct V s (gepPhase W rf p s) := by
  unfold gepPhase
  apply foldl_inv (fun b => Acct V s b) _ _ _ (Acct.acct_refl V s)
  intro b a ha hb
  simp only [getGepOutEdges, List.mem_filter, beq_iff_eq] at ha
  rw [gepStep_eq]
  exact hb.acct_trans (growStep_acct W hW V b _ _ (hC.gep a (hs.gep ▸ ha.1)).2)

theorem processNode_acct (W : WorkList) (hW : W.Lawful) (g : ConstraintGraph)
    (rf : Nat → Nat → Nat) (V : Finset Nat) (hC : Closed g rf V) (p : Nat) (s : State)
    (hs : Sound g rf s) : Acct V s (processNode W rf p s) := by
  have h1 := storeLoadPhase_acct W hW V p s
  have s1 := storeLoadPhase_sound W g rf p s hs
  have h2 := copyPhase_acct W hW g rf V hC p _ s1
  have s2 := copyPhase_sound W g rf p _ s1
  have h3 := gepPhase_acct W hW g rf V hC p _ s2
  exact (h1.acct_trans h2).acct_trans h3

theorem potential_le (g : ConstraintGraph) (rf : Nat → Nat → Nat) (V : Finset Nat)
    (hC : Closed g rf V) (s : State) (hs : Sound g rf s) :
    potential V s ≤ 2 * (V.card * V.card) := by
  unfold potential
  have h1 : s.consg.copyEdges.toFinset.card ≤ V.card * V.card := by
    rw [← Finset.card_product]
    apply Finset.card_le_card_of_injOn (fun e => (e.src, e.dst))
    · intro e he
      have hm : e ∈ s.consg.copyEdges := by simpa using he
      have := derivable_closed g rf V hC _ (hs.copy e hm)
      exact Finset.mem_product.mpr this
    · intro a _ b _ hab
      cases a; cases b
      simp only [Prod.mk.injEq] at hab
      simp [hab.1, hab.2]
  have h2 : ∑ n ∈ V, (s.pts n).length ≤ V.card * V.card := by
    have : ∀ n ∈ V, (s.pts n).length ≤ V.card := by
      intro n _
      have hnd : (s.pts n).Nodup := (hs.sorted n).imp (fun h => Nat.ne_of_lt h)
      rw [← List.toFinset_card_of_nodup hnd]
      apply Finset.card_le_card
      intro x hx
      exact (derivable_closed g rf V hC _ (hs.pts n x (by simpa using hx))).2
    calc ∑ n ∈ V, (s.pts n).length ≤ ∑ _n ∈ V, V.card := Finset.sum_le_sum this
      _ = V.card * V.card := by simp
  omega

theorem mainLoop_terminates (W : WorkList) (hW : W.Lawful) (g : ConstraintGraph)
    (rf : Nat → Nat → Nat) (V : Finset Nat) (hC : Closed g rf V) :
    ∀ (k : Nat) (s : State), Sound g rf s →
      s.worklist.length + 2 * (V.card * V.card) ≤ k + potential V s →
      ∃ s2, mainLoop W rf k s = some s2 := by
  intro k
  induction k with
  | zero =>
    intro s hs hk
    have hb := potential_le g rf V hC s hs
    have hnil : s.worklist = [] := List.eq_nil_of_length_eq_zero (by omega)
    refine ⟨s, ?_⟩
    unfold mainLoop
    rw [(hW.pop_none _).mpr hnil]
  | succ k ih =>
    intro s hs hk
    unfold mainLoop
    cases hpop : W.pop s.worklist with
    | none => exact ⟨s, rfl⟩
    | some pr =>
      obtain ⟨p, rest⟩ := pr
      simp only
      apply ih
      · exact processNode_sound W g rf p _ (hs.sound_setWorklist rest)
      · have hacct := processNode_acct W hW g rf V hC p _ (hs.sound_setWorklist rest)
        have hlen := hW.pop_length _ _ _ hpop
        unfold Acct at hacct
        change _ + potential V s ≤ rest.length + _ at hacct
        omega

theorem closed_of_range (g : ConstraintGraph) (rf : Nat → Nat → Nat) (U : Finset Nat)
    (hU : ∀ o f, rf o f ∈ U) : Closed g rf (U ∪ (graphNodes g).toFinset) := by
  refine ⟨?_, ?_, ?_, ?_, ?_, fun o f => Finset.mem_union_left _ (hU o f)⟩
  all_goals
    intro e he
    constructor <;> apply Finset.mem_union_right <;>
      simp only [graphNodes, List.mem_toFinset, List.mem_append, List.mem_map]
  · exact Or.inl (Or.inl (Or.inl ⟨e, Or.inl (Or.inl (Or.inl he)), rfl⟩))
  · exact Or.inl (Or.inl (Or.inr ⟨e, Or.inl (Or.inl (Or.inl he)), rfl⟩))
  · exact Or.inl (Or.inl (Or.inl ⟨e, Or.inl (Or.inl (Or.inr he)), rfl⟩))
  · exact Or.inl (Or.inl (Or.inr ⟨e, Or.inl (Or.inl (Or.inr he)), rfl⟩))
  · exact Or.inl (Or.inl (Or.inl ⟨e, Or.inl (Or.inr he), rfl⟩))
  · exact Or.inl (Or.inl (Or.inr ⟨e, Or.inl (Or.inr he), rfl⟩))
  · exact Or.inl (Or.inl (Or.inl ⟨e, Or.inr he, rfl⟩))
  · exact Or.inl (Or.inl (Or.inr ⟨e, Or.inr he, rfl⟩))
  · exact Or.inl (Or.inr ⟨e, he, rfl⟩)
  · exact Or.inr ⟨e, he, rfl⟩

/-! ## The concrete queue disciplines are lawful -/

theorem fifoWorkList_lawful : fifoWorkList.Lawful where
  mem_push := by intro wl x y; simp [fifoWorkList]; tauto
  length_push := by intro wl x; simp [fifoWorkList]
  pop_none := by intro wl; cases wl <;> simp [fifoWorkList]
  pop_mem := by
    intro wl p wl2 h
    cases wl <;> simp [fifoWorkList] at h
    simp [h.1]
  pop_rest := by
    intro wl p wl2 h y hy
    cases wl <;> simp [fifoWorkList] at h
    rw [← h.1, ← h.2]
    simpa using hy
  pop_sub := by
    intro wl p wl2 h y hy
    cases wl <;> simp [fifoWorkList] at h
    rw [← h.2] at hy
    exact List.mem_cons_of_mem _ hy
  pop_length := by
    intro wl p wl2 h
    cases wl <;> simp [fifoWorkList] at h
    simp [← h.2]

theorem fifoDedupWorkList_lawful : fifoDedupWorkList.Lawful where
  mem_push := by
    intro wl x y
    simp only [fifoDedupWorkList]
    split
    · rename_i h
      constructor
      · exact Or.inr
      · rintro (h1 | h1)
        · rw [h1]; exact h
        · exact h1
    · simp; tauto
  length_push := by
    intro wl x
    simp only [fifoDedupWorkList]
    split <;> simp
  pop_none := by intro wl; cases wl <;> simp [fifoDedupWorkList]
  pop_mem := by
    intro wl p wl2 h
    cases wl <;> simp [fifoDedupWorkList] at h
    simp [h.1]
  pop_rest := by
    intro wl p wl2 h y hy
    cases wl <;> simp [fifoDedupWorkList] at h
    rw [← h.1, ← h.2]
    simpa using hy
  pop_sub := by
    intro wl p wl2 h y hy
    cases wl <;> simp [fifoDedupWorkList] at h
    rw [← h.2] at hy
    exact List.mem_cons_of_mem _ hy
  pop_length := by
    intro wl p wl2 h
    cases wl <;> simp [fifoDedupWorkList] at h
    simp [← h.2]

theorem lifoWorkList_lawful : lifoWorkList.Lawful where
  mem_push := by intro wl x y; simp [lifoWorkList]
  length_push := by intro wl x; simp [lifoWorkList]
  pop_none := by intro wl; cases wl <;> simp [lifoWorkList]
  pop_mem := by
    intro wl p wl2 h
    cases wl <;> simp [lifoWorkList] at h
    simp [h.1]
  pop_rest := by
    intro wl p wl2 h y hy
    cases wl <;> simp [lifoWorkList] at h
    rw [← h.1, ← h.2]
    simpa using hy
  pop_sub := by
    intro wl p wl2 h y hy
    cases wl <;> simp [lifoWorkList] at h
    rw [← h.2] at hy
    exact List.mem_cons_of_mem _ hy
  pop_length := by
    intro wl p wl2 h
    cases wl <;> simp [lifoWorkList] at h
    simp [← h.2]

/-! ## Further lemmas on runs -/

theorem mainLoop_pres (W : WorkList) (rf : Nat → Nat → Nat) (P : State → Prop)
    (hstep : ∀ s p rest, P s → W.pop s.worklist = some (p, rest) →
      P (processNode W rf p { s with worklist := rest })) :
    ∀ (fuel : Nat) (s s2 : State), P s → mainLoop W rf fuel s = some s2 → P s2 := by
  intro fuel
  induction fuel with
  | zero =>
    intro s s2 hP h
    unfold mainLoop at h
    split at h
    · cases h; exact hP
    · cases h
  | succ k ih =>
    intro s s2 hP h
    unfold mainLoop at h
    split at h
    · cases h; exact hP
    · rename_i p rest hpop
      exact ih _ _ (hstep s p rest hP hpop) h

theorem run_sound (W : WorkList) (rf : Nat → Nat → Nat) (fuel : Nat) (g : ConstraintGraph)
    (s : State) (h : runPointerAnalysis W rf fuel g = some s) : Sound g rf s :=
  mainLoop_pres W rf (fun b => Sound g rf b)
    (fun _ p rest hb _ => processNode_sound W g rf p _ (hb.sound_setWorklist rest))
    fuel _ s (initPass_sound W g rf _ (initState_sound g rf)) h

theorem initPass_reachable (W : WorkList) (rf : Nat → Nat → Nat) (g : ConstraintGraph)
    (s : State) (hs : Reachable W rf g s) : Reachable W rf g (initPass W s) :=
  foldl_inv (fun b => Reachable W rf g b) _ _ _ hs
    (fun _ _ _ hb => foldl_inv (fun c => Reachable W rf g c) _ _ _ hb
      (fun c e _ hc => Reachable.addr c e hc))

theorem processNode_reachable (W : WorkList) (rf : Nat → Nat → Nat) (g : ConstraintGraph)
    (p : Nat) (s : State) (hs : Reachable W rf g s) :
    Reachable W rf g (processNode W rf p s) := by
  have h1 : Reachable W rf g (storeLoadPhase W p s) :=
    foldl_inv (fun b => Reachable W rf g b) _ _ _ hs
      (fun _ o _ hb => foldl_inv (fun c => Reachable W rf g c) _ _ _
        (foldl_inv (fun c => Reachable W rf g c) _ _ _ hb
          (fun c e _ hc => Reachable.store c o e hc))
        (fun c e _ hc => Reachable.load c o e hc))
  have h2 : Reachable W rf g (copyPhase W p (storeLoadPhase W p s)) :=
    foldl_inv (fun b => Reachable W rf g b) _ _ _ h1
      (fun c e _ hc => Reachable.copy c p e hc)
  exact foldl_inv (fun b => Reachable W rf g b) _ _ _ h2
    (fun c e _ hc => Reachable.gep c p e hc)

theorem run_reachable (W : WorkList) (rf : Nat → Nat → Nat) (fuel : Nat) (g : ConstraintGraph)
    (s : State) (h : runPointerAnalysis W rf fuel g = some s) : Reachable W rf g s :=
  mainLoop_pres W rf (fun b => Reachable W rf g b)
    (fun b p rest hb hpop => processNode_reachable W rf g p _ (Reachable.pop b p rest hb hpop))
    fuel _ s (initPass_reachable W rf g _ Reachable.start) h

theorem sorted_ext (l1 l2 : List Nat) (h1 : l1.Pairwise (· < ·)) (h2 : l2.Pairwise (· < ·))
    (h : ∀ x, x ∈ l1 ↔ x ∈ l2) : l1 = l2 := by
  have d1 : l1.Nodup := h1.imp (fun h => Nat.ne_of_lt h)
  have d2 : l2.Nodup := h2.imp (fun h => Nat.ne_of_lt h)
  exact List.eq_of_perm_of_sorted ((List.perm_ext_iff_of_nodup d1 d2).mpr h) h1 h2

theorem storeStep_copyEdges (W : WorkList) (o : Nat) (s : State) (e : ConstraintEdge) :
    (storeStep W o s e).consg.copyEdges = s.consg.copyEdges ∨
    ((storeStep W o s e).consg.copyEdges = s.consg.copyEdges ++ [⟨e.src, o⟩] ∧
      (∀ c ∈ getCopyOutEdges s.consg e.src, c.dst ≠ o) ∧
      (⟨e.src, o⟩ : ConstraintEdge) ∉ s.consg.copyEdges) := by
  unfold storeStep
  simp only
  split
  · exact Or.inl rfl
  · rename_i h
    have hn : (⟨e.src, o⟩ : ConstraintEdge) ∉ s.consg.copyEdges :=
      fun hm => h ((hasCopyOut_iff _ _ _).mpr hm)
    refine Or.inr ⟨?_, ?_, hn⟩
    · simp only [addCopyCGEdge]
      rw [if_neg hn]
    · intro c hc hd
      apply h
      exact List.any_eq_true.mpr ⟨c, hc, by simpa using hd⟩

theorem loadStep_copyEdges (W : WorkList) (o : Nat) (s : State) (e : ConstraintEdge) :
    (loadStep W o s e).consg.copyEdges = s.consg.copyEdges ∨
    ((loadStep W o s e).consg.copyEdges = s.consg.copyEdges ++ [⟨o, e.dst⟩] ∧
      (∀ c ∈ getCopyInEdges s.consg e.dst, c.src ≠ o) ∧
      (⟨o, e.dst⟩ : ConstraintEdge) ∉ s.consg.copyEdges) := by
  unfold loadStep
  simp only
  split
  · exact Or.inl rfl
  · rename_i h
    have hn : (⟨o, e.dst⟩ : ConstraintEdge) ∉ s.consg.copyEdges :=
      fun hm => h ((hasCopyIn_iff _ _ _).mpr hm)
    refine Or.inr ⟨?_, ?_, hn⟩
    · simp only [addCopyCGEdge]
      rw [if_neg hn]
    · intro c hc hd
      apply h
      exact List.any_eq_true.mpr ⟨c, hc, by simpa using hd⟩

theorem reachable_nodup (W : WorkList) (rf : Nat → Nat → Nat) (g : ConstraintGraph)
    (hnd : g.copyEdges.Nodup) (s : State) (hr : Reachable W rf g s) :
    s.consg.copyEdges.Nodup := by
  induction hr with
  | start => exact hnd
  | addr s e _ ih => exact ih
  | pop s p rest _ _ ih => exact ih
  | store s o e _ ih =>
    rcases storeStep_copyEdges W o s e with h | ⟨h, _, hn⟩
    · rw [h]; exact ih
    · rw [h]
      exact List.Nodup.append ih (List.nodup_singleton _) (by simpa using hn)
  | load s o e _ ih =>
    rcases loadStep_copyEdges W o s e with h | ⟨h, _, hn⟩
    · rw [h]; exact ih
    · rw [h]
      exact List.Nodup.append ih (List.nodup_singleton _) (by simpa using hn)
  | copy s p e _ ih => rw [copyStep_consg]; exact ih
  | gep s p e _ ih => rw [gepStep_consg]; exact ih

theorem scenario1_run :
    runPointerAnalysis fifoWorkList fieldOf 10 scenario1 = some scenario1Final := rfl

theorem scenario2_run :
    runPointerAnalysis fifoWorkList fieldOf 10 scenario2 = some scenario2Final := rfl

theorem scenario3_run :
    runPointerAnalysis fifoWorkList fieldOf 10 scenario3 = some scenario3Final := rfl

theorem scenario4_run :
    runPointerAnalysis fifoWorkList fieldOf 10 scenario4 = some scenario4Final := rfl

theorem scenario5_run :
    runPointerAnalysis fifoWorkList fieldOf 10 scenario5 = some scenario5Final := rfl

theorem mixedFifo_run :
    runPointerAnalysis fifoWorkList fieldOf 20 mixedGraph = some mixedFifoFinal := rfl

theorem mixedLifo_run :
    runPointerAnalysis lifoWorkList fieldOf 20 mixedGraph = some mixedLifoFinal := rfl

/-! ## The claims -/

/-- Claim C1 (Copy closure at termination): when `runPointerAnalysis` terminates on a graph
(the store starting empty), every Copy edge `a → b` of the final graph, original or
derived, has every object of the final `pointsTo(a)` in the final `pointsTo(b)`. -/
theorem copy_closure (W : WorkList) (hW : W.Lawful) (rf : Nat → Nat → Nat) (fuel : Nat)
    (g : ConstraintGraph) (s : State) (h : runPointerAnalysis W rf fuel g = some s) :
    ∀ e ∈ s.consg.copyEdges, ∀ x ∈ s.pts e.src, x ∈ s.pts e.dst :=
  fun e he x hx => ((run_final W hW rf fuel g s h).sat e.src).2.2.1 e he rfl x hx

theorem copy_closure_witness :
    runPointerAnalysis fifoWorkList fieldOf 10 scenario2 = some scenario2Final ∧
    scenario2Final.pts 12 = [1] ∧
    (∀ e ∈ scenario2Final.consg.copyEdges,
      ∀ x ∈ scenario2Final.pts e.src, x ∈ scenario2Final.pts e.dst) :=
  ⟨rfl, by decide,
    copy_closure fifoWorkList fifoWorkList_lawful fieldOf 10 scenario2 scenario2Final rfl⟩

/-- Claim C2 (Store closure at termination): for every Store edge `src → p` and every
object `o` of the final `pointsTo(p)`, the final graph has the edge `Copy(src → o)`, and
the final `pointsTo(o)` contains the final `pointsTo(src)`. -/
theorem store_closure (W : WorkList) (hW : W.Lawful) (rf : Nat → Nat → Nat) (fuel : Nat)
    (g : ConstraintGraph) (s : State) (h : runPointerAnalysis W rf fuel g = some s) :
    ∀ st ∈ s.consg.storeEdges, ∀ o ∈ s.pts st.dst,
      (⟨st.src, o⟩ : ConstraintEdge) ∈ s.consg.copyEdges ∧
      ∀ x ∈ s.pts st.src, x ∈ s.pts o := by
  intro st hst o ho
  have hf := run_final W hW rf fuel g s h
  have hc := (hf.sat st.dst).1 st hst rfl o ho
  exact ⟨hc, fun x hx => (hf.sat st.src).2.2.1 ⟨st.src, o⟩ hc rfl x hx⟩

theorem store_closure_witness :
    runPointerAnalysis fifoWorkList fieldOf 10 scenario3 = some scenario3Final ∧
    (⟨11, 2⟩ : ConstraintEdge) ∈ scenario3Final.consg.copyEdges ∧
    1 ∈ scenario3Final.pts 2 ∧
    (∀ st ∈ scenario3Final.consg.storeEdges, ∀ o ∈ scenario3Final.pts st.dst,
      (⟨st.src, o⟩ : ConstraintEdge) ∈ scenario3Final.consg.copyEdges ∧
      ∀ x ∈ scenario3Final.pts st.src, x ∈ scenario3Final.pts o) :=
  ⟨rfl, by decide, by decide,
    store_closure fifoWorkList fifoWorkList_lawful fieldOf 10 scenario3 scenario3Final rfl⟩

/-- Claim C3 (Load closure at termination): for every Load edge `p → dst` and every object
`o` of the final `pointsTo(p)`, the final graph has the edge `Copy(o → dst)`, and the
final `pointsTo(dst)` contains the final `pointsTo(o)`. -/
theorem load_closure (W : WorkList) (hW : W.Lawful) (rf : Nat → Nat → Nat) (fuel : Nat)
    (g : ConstraintGraph) (s : State) (h : runPointerAnalysis W rf fuel g = some s) :
    ∀ ld ∈ s.consg.loadEdges, ∀ o ∈ s.pts ld.src,
      (⟨o, ld.dst⟩ : ConstraintEdge) ∈ s.consg.copyEdges ∧
      ∀ x ∈ s.pts o, x ∈ s.pts ld.dst := by
  intro ld hld o ho
  have hf := run_final W hW rf fuel g s h
  have hc := (hf.sat ld.src).2.1 ld hld rfl o ho
  exact ⟨hc, fun x hx => (hf.sat o).2.2.1 ⟨o, ld.dst⟩ hc rfl x hx⟩

theorem load_closure_witness :
    runPointerAnalysis fifoWorkList fieldOf 10 scenario4 = some scenario4Final ∧
    scenario4Final.pts 1 = [2] ∧ scenario4Final.pts 12 = [2] ∧
    (∀ ld ∈ scenario4Final.consg.loadEdges, ∀ o ∈ scenario4Final.pts ld.src,
      (⟨o, ld.dst⟩ : ConstraintEdge) ∈ scenario4Final.consg.copyEdges ∧
      ∀ x ∈ scenario4Final.pts o, x ∈ scenario4Final.pts ld.dst) :=
  ⟨rfl, by decide, by decide,
    load_closure fifoWorkList fifoWorkList_lawful fieldOf 10 scenario4 scenario4Final rfl⟩

/-- Claim C4 (Gep closure at termination): for every Gep edge `p → target` with field `f`
and every object `o` of the final `pointsTo(p)`, the field object `rf o f` is in the final
`pointsTo(target)`; the oracle `rf` is a function of the pair `(o, f)`. -/
theorem gep_closure (W : WorkList) (hW : W.Lawful) (rf : Nat → Nat → Nat) (fuel : Nat)
    (g : ConstraintGraph) (s : State) (h : runPointerAnalysis W rf fuel g = some s) :
    ∀ ge ∈ s.consg.gepEdges, ∀ o ∈ s.pts ge.src, rf o ge.fld ∈ s.pts ge.dst :=
  fun ge hge o ho => ((run_final W hW rf fuel g s h).sat ge.src).2.2.2 ge hge rfl o ho

theorem gep_closure_witness :
    runPointerAnalysis fifoWorkList fieldOf 10 scenario5 = some scenario5Final ∧
    scenario5Final.pts 12 = [fieldOf 1 3] ∧
    (∀ ge ∈ scenario5Final.consg.gepEdges, ∀ o ∈ scenario5Final.pts ge.src,
      fieldOf o ge.fld ∈ scenario5Final.pts ge.dst) :=
  ⟨rfl, by decide,
    gep_closure fifoWorkList fifoWorkList_lawful fieldOf 10 scenario5 scenario5Final rfl⟩

/-- Claim C5 (Address seeding): for every Addr edge `obj → ptr` of the input graph (into a
node `ptr` of the graph), `obj` is in `pointsTo(ptr)` after the initialization pass and in
the final result of `runPointerAnalysis`. -/
theorem addr_seeding (W : WorkList) (rf : Nat → Nat → Nat) (fuel : Nat)
    (g : ConstraintGraph) (s : State) (e : ConstraintEdge) (he : e ∈ g.addrEdges)
    (hn : e.dst ∈ g.nodes) (h : runPointerAnalysis W rf fuel g = some s) :
    e.src ∈ (initPass W (initState g)).pts e.dst ∧ e.src ∈ s.pts e.dst := by
  have h1 := initPass_achieves W (initState g) e he hn
  exact ⟨h1, (mainLoop_grows W rf fuel _ s h).pts_mono _ _ h1⟩

theorem addr_seeding_witness :
    (⟨2, 12⟩ : ConstraintEdge) ∈ scenario3.addrEdges ∧ 12 ∈ scenario3.nodes ∧
    runPointerAnalysis fifoWorkList fieldOf 10 scenario3 = some scenario3Final ∧
    2 ∈ (initPass fifoWorkList (initState scenario3)).pts 12 ∧ 2 ∈ scenario3Final.pts 12 :=
  ⟨by decide, by decide, rfl,
    addr_seeding fifoWorkList fieldOf 10 scenario3 scenario3Final ⟨2, 12⟩
      (by decide) (by decide) rfl⟩

/-- Claim C6 (Least fixpoint): starting from the empty store, the final mapping of
`runPointerAnalysis` is contained pointwise in every mapping `S` that satisfies all the
constraints of the input graph. -/
theorem least_fixpoint (W : WorkList) (rf : Nat → Nat → Nat) (fuel : Nat)
    (g : ConstraintGraph) (s : State) (S : Nat → Set Nat)
    (h : runPointerAnalysis W rf fuel g = some s) (hS : Solution g rf S) :
    ∀ n x, x ∈ s.pts n → x ∈ S n :=
  fun n x hx => derivable_solution g rf S hS _ ((run_sound W rf fuel g s h).pts n x hx)

theorem least_fixpoint_witness :
    runPointerAnalysis fifoWorkList fieldOf 10 scenario1 = some scenario1Final ∧
    Solution scenario1 fieldOf scenario1Solution ∧
    scenario1Final.pts 11 = [1] ∧
    (∀ n x, x ∈ scenario1Final.pts n → x ∈ scenario1Solution n) := by
  have hS : Solution scenario1 fieldOf scenario1Solution := by
    refine ⟨?_, ?_, ?_, ?_, ?_⟩ <;> simp [scenario1, scenario1Solution]
  exact ⟨rfl, hS, by decide,
    least_fixpoint fifoWorkList fieldOf 10 scenario1 scenario1Final scenario1Solution rfl hS⟩

/-- Claim C7 (Termination): on every (finite) input graph, when the field oracle takes its
values in a finite set `U`, the main loop reaches an empty work queue after finitely many
pops: some amount of fuel makes `runPointerAnalysis` return. -/
theorem solver_terminates (W : WorkList) (hW : W.Lawful) (rf : Nat → Nat → Nat)
    (g : ConstraintGraph) (U : Finset Nat) (hU : ∀ o f, rf o f ∈ U) :
    ∃ fuel s, runPointerAnalysis W rf fuel g = some s ∧ s.worklist = [] := by
  have hC := closed_of_range g rf U hU
  have hs := initPass_sound W g rf _ (initState_sound g rf)
  obtain ⟨s, h⟩ := mainLoop_terminates W hW g rf _ hC
    ((initPass W (initState g)).worklist.length
      + 2 * ((U ∪ (graphNodes g).toFinset).card * (U ∪ (graphNodes g).toFinset).card))
    (initPass W (initState g)) hs (by omega)
  exact ⟨_, s, h, (run_final W hW rf _ g s h).empty⟩

theorem solver_terminates_witness :
    (∀ o f, cappedField o f ∈ Finset.range 21) ∧
    ∃ fuel s, runPointerAnalysis fifoWorkList cappedField fuel gepCycle = some s ∧
      s.worklist = [] := by
  have hU : ∀ o f, cappedField o f ∈ Finset.range 21 := by
    intro o f
    simp only [cappedField, Finset.mem_range]
    omega
  exact ⟨hU, solver_terminates fifoWorkList fifoWorkList_lawful cappedField gepCycle _ hU⟩

/-- Claim C8 (Order independence): two terminating runs on the same input graph whose work
queues hand out the pending nodes in different orders end with the same points-to mapping
and the same set of Copy edges. -/
theorem order_independence (W1 W2 : WorkList) (hW1 : W1.Lawful) (hW2 : W2.Lawful)
    (rf : Nat → Nat → Nat) (fuel1 fuel2 : Nat) (g : ConstraintGraph) (s1 s2 : State)
    (h1 : runPointerAnalysis W1 rf fuel1 g = some s1)
    (h2 : runPointerAnalysis W2 rf fuel2 g = some s2) :
    s1.pts = s2.pts ∧ ∀ e, e ∈ s1.consg.copyEdges ↔ e ∈ s2.consg.copyEdges := by
  have f1 := run_final W1 hW1 rf fuel1 g s1 h1
  have f2 := run_final W2 hW2 rf fuel2 g s2 h2
  constructor
  · funext n
    apply sorted_ext _ _ (f1.sound.sorted n) (f2.sound.sorted n)
    intro x
    rw [final_pts_iff g rf s1 f1, final_pts_iff g rf s2 f2]
  · intro e
    rw [final_copy_iff g rf s1 f1, final_copy_iff g rf s2 f2]

theorem order_independence_witness :
    runPointerAnalysis fifoWorkList fieldOf 20 mixedGraph = some mixedFifoFinal ∧
    runPointerAnalysis lifoWorkList fieldOf 20 mixedGraph = some mixedLifoFinal ∧
    mixedFifoFinal.pts 14 = [1, 113] ∧
    (mixedFifoFinal.pts = mixedLifoFinal.pts ∧
      ∀ e, e ∈ mixedFifoFinal.consg.copyEdges ↔ e ∈ mixedLifoFinal.consg.copyEdges) :=
  ⟨rfl, rfl, by decide,
    order_independence fifoWorkList lifoWorkList fifoWorkList_lawful lifoWorkList_lawful
      fieldOf 20 20 mixedGraph mixedFifoFinal mixedLifoFinal rfl rfl⟩

/-- Claim C9 (Monotonicity of the points-to store): for every node `n`, each Addr insertion
of the initialization pass and each pop-and-process iteration of the main loop leaves
`pointsTo(n)` a superset of what it was; no object is removed. -/
theorem pts_monotone (W : WorkList) (rf : Nat → Nat → Nat) (s : State) (e : ConstraintEdge)
    (p : Nat) (rest : List Nat) (n : Nat) :
    s.pts n ⊆ (addrStep W s e).pts n ∧
    s.pts n ⊆ (processNode W rf p { s with worklist := rest }).pts n :=
  ⟨fun x hx => (addrStep_grows W s e).pts_mono n x hx,
   fun x hx => (processNode_grows W rf p { s with worklist := rest }).pts_mono n x hx⟩

/-- Claim C10 (Duplicate-edge suppression): when the input graph has no two Copy edges with
the same source and destination, neither has any state the solver passes through; and in
such a state the Store rule (scanning the Copy out-edges of the source) and the Load rule
(scanning the Copy in-edges of the destination) leave the Copy edges unchanged or append
one edge whose source and destination no existing Copy edge has. -/
theorem no_duplicate_copy_edges (W : WorkList) (rf : Nat → Nat → Nat) (g : ConstraintGraph)
    (hnd : g.copyEdges.Nodup) (s : State) (hr : Reachable W rf g s) (o : Nat)
    (e : ConstraintEdge) :
    s.consg.copyEdges.Nodup ∧
    ((storeStep W o s e).consg.copyEdges = s.consg.copyEdges ∨
      ((storeStep W o s e).consg.copyEdges = s.consg.copyEdges ++ [⟨e.src, o⟩] ∧
        (∀ c ∈ getCopyOutEdges s.consg e.src, c.dst ≠ o) ∧
        (⟨e.src, o⟩ : ConstraintEdge) ∉ s.consg.copyEdges)) ∧
    ((loadStep W o s e).consg.copyEdges = s.consg.copyEdges ∨
      ((loadStep W o s e).consg.copyEdges = s.consg.copyEdges ++ [⟨o, e.dst⟩] ∧
        (∀ c ∈ getCopyInEdges s.consg e.dst, c.src ≠ o) ∧
        (⟨o, e.dst⟩ : ConstraintEdge) ∉ s.consg.copyEdges)) :=
  ⟨reachable_nodup W rf g hnd s hr, storeStep_copyEdges W o s e, loadStep_copyEdges W o s e⟩

theorem no_duplicate_copy_edges_witness :
    mixedGraph.copyEdges.Nodup ∧ Reachable fifoWorkList fieldOf mixedGraph mixedFifoFinal ∧
    mixedFifoFinal.consg.copyEdges = [⟨11, 13⟩, ⟨11, 2⟩, ⟨2, 14⟩] ∧
    (mixedFifoFinal.consg.copyEdges.Nodup ∧
    ((storeStep fifoWorkList 2 mixedFifoFinal ⟨11, 12⟩).consg.copyEdges
        = mixedFifoFinal.consg.copyEdges ∨
      ((storeStep fifoWorkList 2 mixedFifoFinal ⟨11, 12⟩).consg.copyEdges
          = mixedFifoFinal.consg.copyEdges ++ [⟨11, 2⟩] ∧
        (∀ c ∈ getCopyOutEdges mixedFifoFinal.consg 11, c.dst ≠ 2) ∧
        (⟨11, 2⟩ : ConstraintEdge) ∉ mixedFifoFinal.consg.copyEdges)) ∧
    ((loadStep fifoWorkList 2 mixedFifoFinal ⟨11, 12⟩).consg.copyEdges
        = mixedFifoFinal.consg.copyEdges ∨
      ((loadStep fifoWorkList 2 mixedFifoFinal ⟨11, 12⟩).consg.copyEdges
          = mixedFifoFinal.consg.copyEdges ++ [⟨2, 12⟩] ∧
        (∀ c ∈ getCopyInEdges mixedFifoFinal.consg 12, c.src ≠ 2) ∧
        (⟨2, 12⟩ : ConstraintEdge) ∉ mixedFifoFinal.consg.copyEdges))) :=
  ⟨by decide, run_reachable fifoWorkList fieldOf 20 mixedGraph mixedFifoFinal rfl, by decide,
    no_duplicate_copy_edges fifoWorkList fieldOf mixedGraph (by decide) mixedFifoFinal
      (run_reachable fifoWorkList fieldOf 20 mixedGraph mixedFifoFinal rfl) 2 ⟨11, 12⟩⟩

/-! ## Rules that are already satisfied change nothing -/

theorem setInsert_of_mem (x : Nat) (l : List Nat) (hl : l.Pairwise (· < ·)) (hx : x ∈ l) :
    setInsert x l = l := by
  induction l with
  | nil => cases hx
  | cons y ys ih =>
    rw [List.pairwise_cons] at hl
    unfold setInsert
    rcases List.mem_cons.mp hx with h | h
    · subst h
      simp
    · have hlt : y < x := hl.1 x h
      rw [if_neg (by omega), if_neg (by omega), ih hl.2 h]

theorem setInsertAll_of_subset (xs l : List Nat) (hl : l.Pairwise (· < ·))
    (hx : ∀ x ∈ xs, x ∈ l) : setInsertAll xs l = l := by
  unfold setInsertAll
  induction xs with
  | nil => rfl
  | cons x xs ih =>
    simp only [List.foldl_cons]
    rw [setInsert_of_mem x l hl (hx x (List.mem_cons_self _ _))]
    exact ih (fun y hy => hx y (List.mem_cons_of_mem _ hy))

theorem foldl_fixed {α β : Type} (f : β → α → β) (l : List α) (b : β)
    (h : ∀ a ∈ l, f b a = b) : l.foldl f b = b := by
  induction l with
  | nil => rfl
  | cons a l ih =>
    simp only [List.foldl_cons]
    rw [h a (List.mem_cons_self _ _)]
    exact ih (fun a2 ha2 => h a2 (List.mem_cons_of_mem _ ha2))

theorem growStep_fixed (W : WorkList) (s : State) (t : Nat) (xs : List Nat)
    (hl : (s.pts t).Pairwise (· < ·)) (hx : ∀ x ∈ xs, x ∈ s.pts t) :
    growStep W s t xs = s := by
  have hpts : ptsInsertAll s.pts t xs = s.pts := by
    funext k
    unfold ptsInsertAll ptsSet
    split
    · rename_i hk
      rw [setInsertAll_of_subset xs _ hl hx, hk]
    · rfl
  unfold growStep
  simp only [hpts]
  rw [if_neg (Nat.lt_irrefl _)]

theorem storeStep_fixed (W : WorkList) (o : Nat) (s : State) (e : ConstraintEdge)
    (h : (⟨e.src, o⟩ : ConstraintEdge) ∈ s.consg.copyEdges) : storeStep W o s e = s := by
  unfold storeStep
  simp only
  rw [if_pos ((hasCopyOut_iff _ _ _).mpr h)]

theorem loadStep_fixed (W : WorkList) (o : Nat) (s : State) (e : ConstraintEdge)
    (h : (⟨o, e.dst⟩ : ConstraintEdge) ∈ s.consg.copyEdges) : loadStep W o s e = s := by
  unfold loadStep
  simp only
  rw [if_pos ((hasCopyIn_iff _ _ _).mpr h)]

theorem storeLoadPhase_fixed (W : WorkList) (rf : Nat → Nat → Nat) (p : Nat) (s : State)
    (hsat : Sat rf s p) : storeLoadPhase W p s = s := by
  unfold storeLoadPhase
  apply foldl_fixed
  intro o ho
  unfold objectStep
  simp only
  have h1 : (getStoreInEdges s.consg p).foldl (storeStep W o) s = s := by
    apply foldl_fixed
    intro st hst
    simp only [getStoreInEdges, List.mem_filter, beq_iff_eq] at hst
    exact storeStep_fixed W o s st (hsat.1 st hst.1 hst.2 o ho)
  rw [h1]
  apply foldl_fixed
  intro ld hld
  simp only [getLoadOutEdges, List.mem_filter, beq_iff_eq] at hld
  exact loadStep_fixed W o s ld (hsat.2.1 ld hld.1 hld.2 o ho)

theorem copyPhase_fixed (W : WorkList) (rf : Nat → Nat → Nat) (p : Nat) (s : State)
    (hs : SortedPts s) (hsat : Sat rf s p) : copyPhase W p s = s := by
  unfold copyPhase
  apply foldl_fixed
  intro c hc
  simp only [getCopyOutEdges, List.mem_filter, beq_iff_eq] at hc
  rw [copyStep_eq]
  exact growStep_fixed W s _ _ (hs _) (hsat.2.2.1 c hc.1 hc.2)

theorem gepPhase_fixed (W : WorkList) (rf : Nat → Nat → Nat) (p : Nat) (s : State)
    (hs : SortedPts s) (hsat : Sat rf s p) : gepPhase W rf p s = s := by
  unfold gepPhase
  apply foldl_fixed
  intro ge hge
  simp only [getGepOutEdges, List.mem_filter, beq_iff_eq] at hge
  rw [gepStep_eq]
  apply growStep_fixed W s _ _ (hs _)
  intro x hx
  obtain ⟨o, ho, rfl⟩ := List.mem_map.mp hx
  exact hsat.2.2.2 ge hge.1 hge.2 o ho

theorem processNode_fixed (W : WorkList) (rf : Nat → Nat → Nat) (p : Nat) (s : State)
    (hs : SortedPts s) (hsat : Sat rf s p) : processNode W rf p s = s := by
  unfold processNode
  rw [storeLoadPhase_fixed W rf p s hsat, copyPhase_fixed W rf p s hs hsat,
    gepPhase_fixed W rf p s hs hsat]

theorem growStep_sorted (W : WorkList) (s : State) (t : Nat) (xs : List Nat)
    (hs : SortedPts s) : SortedPts (growStep W s t xs) := by
  intro n
  rw [growStep_pts]
  exact ptsInsertAll_sorted _ _ _ hs n

theorem processNode_sorted (W : WorkList) (rf : Nat → Nat → Nat) (p : Nat) (s : State)
    (hs : SortedPts s) : SortedPts (processNode W rf p s) := by
  have h1 : SortedPts (storeLoadPhase W p s) := by
    intro n
    rw [storeLoadPhase_pts]
    exact hs n
  have h2 : SortedPts (copyPhase W p (storeLoadPhase W p s)) :=
    foldl_inv (fun b => SortedPts b) _ _ _ h1
      (fun b a _ hb => by rw [copyStep_eq]; exact growStep_sorted W b _ _ hb)
  exact foldl_inv (fun b => SortedPts b) _ _ _ h2
    (fun b a _ hb => by rw [gepStep_eq]; exact growStep_sorted W b _ _ hb)

/-- When the body of the loop leaves the points-to set of the processed node as it was,
all rules of that node are satisfied afterwards. -/
theorem processNode_sat_self (W : WorkList) (rf : Nat → Nat → Nat) (p : Nat) (s : State)
    (h : (processNode W rf p s).pts p = s.pts p) : Sat rf (processNode W rf p s) p := by
  have G01 := storeLoadPhase_grows W p s
  have G12 := copyPhase_grows W p (storeLoadPhase W p s)
  have G23 := gepPhase_grows W rf p (copyPhase W p (storeLoadPhase W p s))
  have G03 : Grows s (processNode W rf p s) := (G01.grows_trans G12).grows_trans G23
  have G13 := G12.grows_trans G23
  have A1 := storeLoadPhase_achieves W p s
  have A2 := copyPhase_achieves W p (storeLoadPhase W p s)
  have A3 := gepPhase_achieves W rf p (copyPhase W p (storeLoadPhase W p s))
  have hc31 : (processNode W rf p s).consg = (storeLoadPhase W p s).consg := by
    unfold processNode
    rw [gepPhase_consg, copyPhase_consg]
  refine ⟨?_, ?_, ?_, ?_⟩
  · intro st hst hd o ho
    rw [h] at ho
    exact G13.copy_mono _ ((A1 o ho).1 st (G03.store ▸ hst) hd)
  · intro ld hld hd o ho
    rw [h] at ho
    exact G13.copy_mono _ ((A1 o ho).2 ld (G03.load ▸ hld) hd)
  · intro c hc hsrc x hx
    rw [h] at hx
    rw [hc31] at hc
    exact G23.pts_mono _ _ (A2 c hc hsrc x (G01.pts_mono _ _ hx))
  · intro ge hge hsrc o ho
    rw [h] at ho
    exact A3 ge (G23.gep ▸ hge) hsrc o ((G01.grows_trans G12).pts_mono _ _ ho)

theorem sat_setWorklist (rf : Nat → Nat → Nat) (s : State) (wl : List Nat) (n : Nat)
    (h : Sat rf s n) : Sat rf { s with worklist := wl } n := h

/-! ## The states a run passes through -/

theorem visited_sound (W : WorkList) (rf : Nat → Nat → Nat) (g : ConstraintGraph) (s : State)
    (hv : Visited W rf g s) : Sound g rf s := by
  induction hv with
  | start => exact initState_sound g rf
  | addr s e _ he hn ih => exact addrStep_sound W g rf s e ih he hn
  | pop s p rest _ _ ih => exact ih.sound_setWorklist rest
  | store s o e _ he ho ih => exact storeStep_sound W g rf o s e ih he ho
  | load s o e _ he ho ih => exact loadStep_sound W g rf o s e ih he ho
  | copy s p e _ he hp ih => exact copyStep_sound W g rf p s e ih he hp
  | gep s p e _ he hp ih => exact gepStep_sound W g rf p s e ih he hp

theorem initPass_visited (W : WorkList) (rf : Nat → Nat → Nat) (g : ConstraintGraph) :
    Visited W rf g (initPass W (initState g)) := by
  unfold initPass
  apply foldl_inv (fun b => Visited W rf g b) _ _ _ Visited.start
  intro b n hn hb
  unfold initNode
  apply foldl_inv (fun c => Visited W rf g c) _ _ _ hb
  intro c e he hc
  simp only [getAddrInEdges, List.mem_filter, beq_iff_eq] at he
  have hsb := visited_sound W rf g b hb
  exact Visited.addr c e hc (hsb.addr ▸ he.1) (he.2 ▸ hn)

theorem storeLoadPhase_visited (W : WorkList) (rf : Nat → Nat → Nat) (g : ConstraintGraph)
    (p : Nat) (s : State) (hs : Visited W rf g s) : Visited W rf g (storeLoadPhase W p s) := by
  unfold storeLoadPhase
  refine (foldl_inv (fun b => Visited W rf g b ∧ b.pts = s.pts) _ _ _ ⟨hs, rfl⟩ ?_).1
  intro b o ho hb
  refine ⟨?_, (objectStep_pts W p b o).trans hb.2⟩
  unfold objectStep
  simp only
  have h1 : Visited W rf g ((getStoreInEdges b.consg p).foldl (storeStep W o) b) ∧
      ((getStoreInEdges b.consg p).foldl (storeStep W o) b).pts = s.pts := by
    apply foldl_inv (fun c => Visited W rf g c ∧ c.pts = s.pts) _ _ _ hb
    intro c e he hc
    simp only [getStoreInEdges, List.mem_filter, beq_iff_eq] at he
    refine ⟨Visited.store c o e hc.1 ((visited_sound W rf g b hb.1).store ▸ he.1) ?_,
      (storeStep_pts W o c e).trans hc.2⟩
    rw [hc.2, he.2]; exact ho
  refine (foldl_inv (fun c => Visited W rf g c ∧ c.pts = s.pts) _ _ _ h1 ?_).1
  intro c e he hc
  simp only [getLoadOutEdges, List.mem_filter, beq_iff_eq] at he
  refine ⟨Visited.load c o e hc.1 ((visited_sound W rf g _ h1.1).load ▸ he.1) ?_,
    (loadStep_pts W o c e).trans hc.2⟩
  rw [hc.2, he.2]; exact ho

theorem copyPhase_visited (W : WorkList) (rf : Nat → Nat → Nat) (g : ConstraintGraph)
    (p : Nat) (s : State) (hs : Visited W rf g s) : Visited W rf g (copyPhase W p s) := by
  unfold copyPhase
  refine (foldl_inv (fun b => Visited W rf g b ∧ b.consg = s.consg) _ _ _ ⟨hs, rfl⟩ ?_).1
  intro b e he hb
  simp only [getCopyOutEdges, List.mem_filter, beq_iff_eq] at he
  exact ⟨Visited.copy b p e hb.1 (by rw [hb.2]; exact he.1) he.2,
    (copyStep_consg W p b e).trans hb.2⟩

theorem gepPhase_visited (W : WorkList) (rf : Nat → Nat → Nat) (g : ConstraintGraph)
    (p : Nat) (s : State) (hs : Visited W rf g s) : Visited W rf g (gepPhase W rf p s) := by
  unfold gepPhase
  apply foldl_inv (fun b => Visited W rf g b) _ _ _ hs
  intro b e he hb
  simp only [getGepOutEdges, List.mem_filter, beq_iff_eq] at he
  exact Visited.gep b p e hb ((visited_sound W rf g s hs).gep ▸ he.1) he.2

theorem processNode_visited (W : WorkList) (rf : Nat → Nat → Nat) (g : ConstraintGraph)
    (p : Nat) (s : State) (hs : Visited W rf g s) : Visited W rf g (processNode W rf p s) :=
  gepPhase_visited W rf g p _ (copyPhase_visited W rf g p _ (storeLoadPhase_visited W rf g p s hs))

theorem loopHead_visited (W : WorkList) (rf : Nat → Nat → Nat) (g : ConstraintGraph)
    (s : State) (hl : LoopHead W rf g s) : Visited W rf g s := by
  induction hl with
  | init => exact initPass_visited W rf g
  | step s p rest _ hpop ih =>
    exact processNode_visited W rf g p _ (Visited.pop s p rest ih hpop)

theorem run_visited (W : WorkList) (rf : Nat → Nat → Nat) (fuel : Nat) (g : ConstraintGraph)
    (s : State) (h : runPointerAnalysis W rf fuel g = some s) : Visited W rf g s :=
  mainLoop_pres W rf (fun b => Visited W rf g b)
    (fun b p rest hb hpop => processNode_visited W rf g p _ (Visited.pop b p rest hb hpop))
    fuel _ s (initPass_visited W rf g) h

theorem run_loopHead (W : WorkList) (rf : Nat → Nat → Nat) (fuel : Nat) (g : ConstraintGraph)
    (s : State) (h : runPointerAnalysis W rf fuel g = some s) : LoopHead W rf g s :=
  mainLoop_pres W rf (fun b => LoopHead W rf g b)
    (fun b p rest hb hpop => LoopHead.step b p rest hb hpop)
    fuel _ s LoopHead.init h

theorem loopHead_coverage (W : WorkList) (hW : W.Lawful) (rf : Nat → Nat → Nat)
    (g : ConstraintGraph) (s : State) (hl : LoopHead W rf g s) : Coverage rf s := by
  induction hl with
  | init => exact initPass_coverage W hW rf g
  | step s p rest _ hpop ih => exact processNode_coverage W hW rf s p rest ih hpop

/-! ## The initialization pass pushes every target -/

theorem initNode_pushes (W : WorkList) (hW : W.Lawful) (s : State) (n : Nat) :
    ∀ e ∈ s.consg.addrEdges, e.dst = n → n ∈ (initNode W s n).worklist := by
  intro e he hd
  have hmem : e ∈ getAddrInEdges s.consg n := by
    simp only [getAddrInEdges, List.mem_filter, beq_iff_eq]
    exact ⟨he, hd⟩
  have := foldl_achieves (fun _ => True) (fun (a : ConstraintEdge) b => a.dst ∈ b.worklist)
    (addrStep W) (getAddrInEdges s.consg n) s trivial (fun _ _ _ _ => trivial)
    (fun b a _ _ => (hW.mem_push _ _ _).mpr (Or.inl rfl))
    (fun b a a2 _ _ hq => (addrStep_ext W hW b a2).wl_mono _ hq) e hmem
  simp only [hd] at this
  exact this

theorem initPass_pushes (W : WorkList) (hW : W.Lawful) (s : State) :
    ∀ e ∈ s.consg.addrEdges, e.dst ∈ s.consg.nodes → e.dst ∈ (initPass W s).worklist := by
  intro e he hn
  have := foldl_achieves (fun b => Grows s b)
    (fun (n : Nat) b => ∀ e ∈ s.consg.addrEdges, e.dst = n → n ∈ b.worklist)
    (initNode W) s.consg.nodes s (Grows.grows_refl s)
    (fun b a _ hb => hb.grows_trans (initNode_grows W b a))
    (fun b a _ hb e he hd => initNode_pushes W hW b a e (hb.addr ▸ he) hd)
    (fun b a a2 _ _ hq e he hd => (initNode_ext W hW b a2).wl_mono _ (hq e he hd))
    e.dst hn
  exact this e he rfl

/-! ## The per-object variant reaches the same fixpoint -/

theorem gepObjectStepPerObject_eq (W : WorkList) (rf : Nat → Nat → Nat) (e : GepCGEdge)
    (s : State) (o : Nat) :
    gepObjectStepPerObject W rf e s o = growStep W s e.dst [rf o e.fld] := rfl

theorem gepStepPerObject_grows (W : WorkList) (rf : Nat → Nat → Nat) (p : Nat) (s : State)
    (e : GepCGEdge) : Grows s (gepStepPerObject W rf p s e) :=
  foldl_inv (fun b => Grows s b) _ _ _ (Grows.grows_refl s)
    (fun b o _ hb => hb.grows_trans
      (by rw [gepObjectStepPerObject_eq]; exact growStep_grows W b _ _))

theorem gepStepPerObject_ext (W : WorkList) (hW : W.Lawful) (rf : Nat → Nat → Nat) (p : Nat)
    (s : State) (e : GepCGEdge) : Ext s (gepStepPerObject W rf p s e) :=
  foldl_inv (fun b => Ext s b) _ _ _ (Ext.ext_refl s)
    (fun b o _ hb => hb.ext_trans
      (by rw [gepObjectStepPerObject_eq]; exact growStep_ext W hW b _ _))

theorem gepStepPerObject_consg (W : WorkList) (rf : Nat → Nat → Nat) (p : Nat) (s : State)
    (e : GepCGEdge) : (gepStepPerObject W rf p s e).consg = s.consg := by
  unfold gepStepPerObject
  apply foldl_inv (fun (b : State) => b.consg = s.consg) _ _ _ rfl
  intro b o _ hb
  rw [gepObjectStepPerObject_eq, growStep_consg]
  exact hb

theorem gepStepPerObject_sound (W : WorkList) (g : ConstraintGraph) (rf : Nat → Nat → Nat)
    (p : Nat) (s : State) (e : GepCGEdge) (hs : Sound g rf s) (he : e ∈ g.gepEdges)
    (hp : e.src = p) : Sound g rf (gepStepPerObject W rf p s e) := by
  unfold gepStepPerObject
  apply foldl_inv (fun b => Sound g rf b) _ _ _ hs
  intro b o ho hb
  rw [gepObjectStepPerObject_eq]
  apply growStep_sound W g rf b _ _ hb
  intro x hx
  rw [List.mem_singleton] at hx
  rw [hx]
  exact Derivable.gep e o he (hs.pts _ _ (by rw [hp]; exact ho))

theorem gepStepPerObject_achieves (W : WorkList) (rf : Nat → Nat → Nat) (p : Nat) (s : State)
    (e : GepCGEdge) : ∀ o ∈ s.pts p, rf o e.fld ∈ (gepStepPerObject W rf p s e).pts e.dst :=
  foldl_achieves (fun _ => True) (fun (o : Nat) b => rf o e.fld ∈ b.pts e.dst)
    (gepObjectStepPerObject W rf e) (s.pts p) s trivial (fun _ _ _ _ => trivial)
    (fun b o _ _ => by
      show rf o e.fld ∈ (gepObjectStepPerObject W rf e b o).pts e.dst
      rw [gepObjectStepPerObject_eq, growStep_pts]
      exact (mem_ptsInsertAll _ _ _ _ _).mpr (Or.inr ⟨rfl, List.mem_singleton.mpr rfl⟩))
    (fun b o o2 _ _ hq => by
      show rf o e.fld ∈ (gepObjectStepPerObject W rf e b o2).pts e.dst
      rw [gepObjectStepPerObject_eq]
      exact (growStep_grows W b _ _).pts_mono _ _ hq)

theorem gepPhasePerObject_grows (W : WorkList) (rf : Nat → Nat → Nat) (p : Nat) (s : State) :
    Grows s (gepPhasePerObject W rf p s) :=
  foldl_inv (fun b => Grows s b) _ _ _ (Grows.grows_refl s)
    (fun b a _ hb => hb.grows_trans (gepStepPerObject_grows W rf p b a))

theorem gepPhasePerObject_ext (W : WorkList) (hW : W.Lawful) (rf : Nat → Nat → Nat) (p : Nat)
    (s : State) : Ext s (gepPhasePerObject W rf p s) :=
  foldl_inv (fun b => Ext s b) _ _ _ (Ext.ext_refl s)
    (fun b a _ hb => hb.ext_trans (gepStepPerObject_ext W hW rf p b a))

theorem gepPhasePerObject_consg (W : WorkList) (rf : Nat → Nat → Nat) (p : Nat) (s : State) :
    (gepPhasePerObject W rf p s).consg = s.consg :=
  foldl_inv (fun b => b.consg = s.consg) _ _ _ rfl
    (fun b a _ hb => (gepStepPerObject_consg W rf p b a).trans hb)

theorem gepPhasePerObject_sound (W : WorkList) (g : ConstraintGraph) (rf : Nat → Nat → Nat)
    (p : Nat) (s : State) (hs : Sound g rf s) : Sound g rf (gepPhasePerObject W rf p s) := by
  unfold gepPhasePerObject
  apply foldl_inv (fun b => Sound g rf b) _ _ _ hs
  intro b a ha hb
  simp only [getGepOutEdges, List.mem_filter, beq_iff_eq] at ha
  exact gepStepPerObject_sound W g rf p b a hb (hs.gep ▸ ha.1) ha.2

theorem gepPhasePerObject_achieves (W : WorkList) (rf : Nat → Nat → Nat) (p : Nat) (s : State) :
    ∀ ge ∈ s.consg.gepEdges, ge.src = p →
      ∀ o ∈ s.pts p, rf o ge.fld ∈ (gepPhasePerObject W rf p s).pts ge.dst := by
  intro ge hge hp
  have hmem : ge ∈ getGepOutEdges s.consg p := by
    simp only [getGepOutEdges, List.mem_filter, beq_iff_eq]
    exact ⟨hge, hp⟩
  exact foldl_achieves (fun b => Grows s b)
    (fun (ge : GepCGEdge) b => ∀ o ∈ s.pts p, rf o ge.fld ∈ b.pts ge.dst)
    (gepStepPerObject W rf p) (getGepOutEdges s.consg p) s (Grows.grows_refl s)
    (fun b a _ hb => hb.grows_trans (gepStepPerObject_grows W rf p b a))
    (fun b a _ hb o ho => gepStepPerObject_achieves W rf p b a o (hb.pts_mono _ _ ho))
    (fun b a a2 _ _ hq o ho => (gepStepPerObject_grows W rf p b a2).pts_mono _ _ (hq o ho))
    ge hmem

theorem processNodePerObject_grows (W : WorkList) (rf : Nat → Nat → Nat) (p : Nat)
    (s : State) : Grows s (processNodePerObject W rf p s) :=
  ((storeLoadPhase_grows W p s).grows_trans (copyPhase_grows W p _)).grows_trans
    (gepPhasePerObject_grows W rf p _)

theorem processNodePerObject_ext (W : WorkList) (hW : W.Lawful) (rf : Nat → Nat → Nat)
    (p : Nat) (s : State) : Ext s (processNodePerObject W rf p s) :=
  ((storeLoadPhase_ext W hW p s).ext_trans (copyPhase_ext W hW p _)).ext_trans
    (gepPhasePerObject_ext W hW rf p _)

theorem processNodePerObject_sound (W : WorkList) (g : ConstraintGraph)
    (rf : Nat → Nat → Nat) (p : Nat) (s : State) (hs : Sound g rf s) :
    Sound g rf (processNodePerObject W rf p s) :=
  gepPhasePerObject_sound W g rf p _
    (copyPhase_sound W g rf p _ (storeLoadPhase_sound W g rf p s hs))

theorem processNodePerObject_sat_self (W : WorkList) (rf : Nat → Nat → Nat) (p : Nat)
    (s : State) (h : (processNodePerObject W rf p s).pts p = s.pts p) :
    Sat rf (processNodePerObject W rf p s) p := by
  have G01 := storeLoadPhase_grows W p s
  have G12 := copyPhase_grows W p (storeLoadPhase W p s)
  have G23 := gepPhasePerObject_grows W rf p (copyPhase W p (storeLoadPhase W p s))
  have G03 : Grows s (processNodePerObject W rf p s) := (G01.grows_trans G12).grows_trans G23
  have G13 := G12.grows_trans G23
  have A1 := storeLoadPhase_achieves W p s
  have A2 := copyPhase_achieves W p (storeLoadPhase W p s)
  have A3 := gepPhasePerObject_achieves W rf p (copyPhase W p (storeLoadPhase W p s))
  have hc31 : (processNodePerObject W rf p s).consg = (storeLoadPhase W p s).consg := by
    unfold processNodePerObject
    rw [gepPhasePerObject_consg, copyPhase_consg]
  refine ⟨?_, ?_, ?_, ?_⟩
  · intro st hst hd o ho
    rw [h] at ho
    exact G13.copy_mono _ ((A1 o ho).1 st (G03.store ▸ hst) hd)
  · intro ld hld hd o ho
    rw [h] at ho
    exact G13.copy_mono _ ((A1 o ho).2 ld (G03.load ▸ hld) hd)
  · intro c hc hsrc x hx
    rw [h] at hx
    rw [hc31] at hc
    exact G23.pts_mono _ _ (A2 c hc hsrc x (G01.pts_mono _ _ hx))
  · intro ge hge hsrc o ho
    rw [h] at ho
    exact A3 ge (G23.gep ▸ hge) hsrc o ((G01.grows_trans G12).pts_mono _ _ ho)

/-- Coverage survives any loop body that keeps the push discipline and satisfies the rules
of the popped node whenever it leaves that node's points-to set as it was. -/
theorem coverage_step (W : WorkList) (hW : W.Lawful) (rf : Nat → Nat → Nat) (s : State)
    (p : Nat) (rest : List Nat) (s3 : State) (hc : Coverage rf s)
    (hpop : W.pop s.worklist = some (p, rest)) (hE : Ext { s with worklist := rest } s3)
    (hself : s3.pts p = s.pts p → Sat rf s3 p) : Coverage rf s3 := by
  intro n hn
  have hpts : s3.pts n = s.pts n := by
    by_contra h
    exact hn (hE.pts_push n h)
  by_cases hnp : n = p
  · subst hnp
    exact hself hpts
  · have hcopy : ∀ c ∈ s3.consg.copyEdges, c.src = n → c ∈ s.consg.copyEdges := by
      intro c hc1 hsrc
      by_contra h
      exact hn (hsrc ▸ hE.copy_push c hc1 h)
    have hnw : n ∉ s.worklist := by
      intro h
      rcases hW.pop_rest _ _ _ hpop n h with h1 | h1
      · exact hnp h1
      · exact hn (hE.wl_mono n h1)
    obtain ⟨S1, S2, S3, S4⟩ := hc n hnw
    refine ⟨?_, ?_, ?_, ?_⟩
    · intro st hst hd o ho
      rw [hpts] at ho
      exact hE.copy_mono _ (S1 st (hE.store ▸ hst) hd o ho)
    · intro ld hld hd o ho
      rw [hpts] at ho
      exact hE.copy_mono _ (S2 ld (hE.load ▸ hld) hd o ho)
    · intro c hc1 hsrc x hx
      rw [hpts] at hx
      exact hE.pts_mono _ _ (S3 c (hcopy c hc1 hsrc) hsrc x hx)
    · intro ge hge hsrc o ho
      rw [hpts] at ho
      exact hE.pts_mono _ _ (S4 ge (hE.gep ▸ hge) hsrc o ho)

theorem mainLoopPerObject_inv (W : WorkList) (hW : W.Lawful) (rf : Nat → Nat → Nat)
    (P : State → Prop)
    (hstep : ∀ s p rest, P s → W.pop s.worklist = some (p, rest) →
      P (processNodePerObject W rf p { s with worklist := rest })) :
    ∀ (fuel : Nat) (s s2 : State), P s → mainLoopPerObject W rf fuel s = some s2 →
      P s2 ∧ s2.worklist = [] := by
  intro fuel
  induction fuel with
  | zero =>
    intro s s2 hP h
    unfold mainLoopPerObject at h
    split at h
    · rename_i hpop
      cases h
      exact ⟨hP, (hW.pop_none _).mp hpop⟩
    · cases h
  | succ k ih =>
    intro s s2 hP h
    unfold mainLoopPerObject at h
    split at h
    · rename_i hpop
      cases h
      exact ⟨hP, (hW.pop_none _).mp hpop⟩
    · rename_i p rest hpop
      exact ih _ _ (hstep s p rest hP hpop) h

theorem runPerObject_final (W : WorkList) (hW : W.Lawful) (rf : Nat → Nat → Nat) (fuel : Nat)
    (g : ConstraintGraph) (s : State) (h : runPointerAnalysisPerObject W rf fuel g = some s) :
    Final g rf s := by
  unfold runPointerAnalysisPerObject at h
  have hinv := mainLoopPerObject_inv W hW rf
    (fun b => (Sound g rf b ∧ Coverage rf b) ∧
      (Grows (initState g) b ∧ ∀ e ∈ g.addrEdges, e.dst ∈ g.nodes → e.src ∈ b.pts e.dst))
    (fun b p rest hb hpop =>
      ⟨⟨processNodePerObject_sound W g rf p _ (hb.1.1.sound_setWorklist rest),
        coverage_step W hW rf b p rest _ hb.1.2 hpop (processNodePerObject_ext W hW rf p _)
          (processNodePerObject_sat_self W rf p { b with worklist := rest })⟩,
       ⟨(hb.2.1.grows_trans (Grows.grows_setWorklist b rest)).grows_trans
          (processNodePerObject_grows W rf p _),
        fun e he hn => (processNodePerObject_grows W rf p { b with worklist := rest }).pts_mono
          _ _ (hb.2.2 e he hn)⟩⟩)
    fuel _ s
    ⟨⟨initPass_sound W g rf _ (initState_sound g rf), initPass_coverage W hW rf g⟩,
     ⟨initPass_grows W (initState g), initPass_achieves W (initState g)⟩⟩ h
  refine ⟨hinv.1.1.1, hinv.2, ?_, hinv.1.2.1, hinv.1.2.2⟩
  intro n
  apply hinv.1.1.2 n
  rw [hinv.2]
  exact List.not_mem_nil n

theorem gepPair_run :
    runPointerAnalysis fifoWorkList fieldOf 20 gepPair = some gepPairFinal := rfl

theorem gepPairPerObject_run :
    runPointerAnalysisPerObject fifoWorkList fieldOf 20 gepPair = some gepPairPerObjectFinal :=
  rfl

/-! ## Provenance of points-to members and of derived Copy edges -/

theorem provenance_mono (g : ConstraintGraph) (rf : Nat → Nat → Nat) (s s2 : State)
    (hm : ∀ n x, x ∈ s.pts n → x ∈ s2.pts n) (x : Nat)
    (h : (∃ e ∈ g.addrEdges, e.src = x) ∨
      (∃ ge ∈ g.gepEdges, ∃ o ∈ s.pts ge.src, x = rf o ge.fld)) :
    (∃ e ∈ g.addrEdges, e.src = x) ∨
      (∃ ge ∈ g.gepEdges, ∃ o ∈ s2.pts ge.src, x = rf o ge.fld) := by
  rcases h with h | ⟨ge, hge, o, ho, hxo⟩
  · exact Or.inl h
  · exact Or.inr ⟨ge, hge, o, hm _ _ ho, hxo⟩

theorem visited_provenance (W : WorkList) (rf : Nat → Nat → Nat) (g : ConstraintGraph)
    (s : State) (hv : Visited W rf g s) :
    ∀ n x, x ∈ s.pts n →
      (∃ e ∈ g.addrEdges, e.src = x) ∨
      (∃ ge ∈ g.gepEdges, ∃ o ∈ s.pts ge.src, x = rf o ge.fld) := by
  induction hv with
  | start =>
    intro n x hx
    simp [initState, emptyPts] at hx
  | addr s e _ he _ ih =>
    intro n x hx
    apply provenance_mono g rf s _ (addrStep_grows W s e).pts_mono
    rcases (mem_ptsInsert _ _ _ _ _).mp hx with h | ⟨_, h2⟩
    · exact ih n x h
    · exact Or.inl ⟨e, he, h2.symm⟩
  | pop s p rest _ _ ih => exact ih
  | store s o e _ _ _ ih =>
    intro n x hx
    apply provenance_mono g rf s _ (storeStep_grows W o s e).pts_mono
    rw [storeStep_pts] at hx
    exact ih n x hx
  | load s o e _ _ _ ih =>
    intro n x hx
    apply provenance_mono g rf s _ (loadStep_grows W o s e).pts_mono
    rw [loadStep_pts] at hx
    exact ih n x hx
  | copy s p e _ _ _ ih =>
    intro n x hx
    apply provenance_mono g rf s _ (copyStep_grows W p s e).pts_mono
    rw [copyStep_eq, growStep_pts] at hx
    rcases (mem_ptsInsertAll _ _ _ _ _).mp hx with h | ⟨_, h2⟩
    · exact ih n x h
    · exact ih p x h2
  | gep s p e _ he hp ih =>
    intro n x hx
    apply provenance_mono g rf s _ (gepStep_grows W rf p s e).pts_mono
    rw [gepStep_eq, growStep_pts] at hx
    rcases (mem_ptsInsertAll _ _ _ _ _).mp hx with h | ⟨_, h2⟩
    · exact ih n x h
    · obtain ⟨o, ho, hxo⟩ := List.mem_map.mp h2
      exact Or.inr ⟨e, he, o, by rw [hp]; exact ho, hxo.symm⟩

theorem justified_mono (g : ConstraintGraph) (s s2 : State)
    (hm : ∀ n x, x ∈ s.pts n → x ∈ s2.pts n) (e : ConstraintEdge)
    (h : e ∈ g.copyEdges ∨
      (∃ st ∈ g.storeEdges, st.src = e.src ∧ e.dst ∈ s.pts st.dst) ∨
      (∃ ld ∈ g.loadEdges, ld.dst = e.dst ∧ e.src ∈ s.pts ld.src)) :
    e ∈ g.copyEdges ∨
      (∃ st ∈ g.storeEdges, st.src = e.src ∧ e.dst ∈ s2.pts st.dst) ∨
      (∃ ld ∈ g.loadEdges, ld.dst = e.dst ∧ e.src ∈ s2.pts ld.src) := by
  rcases h with h | ⟨st, hst, h1, h2⟩ | ⟨ld, hld, h1, h2⟩
  · exact Or.inl h
  · exact Or.inr (Or.inl ⟨st, hst, h1, hm _ _ h2⟩)
  · exact Or.inr (Or.inr ⟨ld, hld, h1, hm _ _ h2⟩)

theorem visited_justified (W : WorkList) (rf : Nat → Nat → Nat) (g : ConstraintGraph)
    (s : State) (hv : Visited W rf g s) :
    ∀ e ∈ s.consg.copyEdges,
      e ∈ g.copyEdges ∨
      (∃ st ∈ g.storeEdges, st.src = e.src ∧ e.dst ∈ s.pts st.dst) ∨
      (∃ ld ∈ g.loadEdges, ld.dst = e.dst ∧ e.src ∈ s.pts ld.src) := by
  induction hv with
  | start => exact fun e he => Or.inl he
  | addr s e _ _ _ ih =>
    intro c hc
    exact justified_mono g s _ (addrStep_grows W s e).pts_mono c (ih c hc)
  | pop s p rest _ _ ih => exact ih
  | store s o e _ he ho ih =>
    intro c hc
    apply justified_mono g s _ (storeStep_grows W o s e).pts_mono c
    rcases storeStep_copyEdges W o s e with h | ⟨h, _, _⟩
    · rw [h] at hc
      exact ih c hc
    · rw [h] at hc
      rcases List.mem_append.mp hc with h1 | h1
      · exact ih c h1
      · rw [List.mem_singleton] at h1
        rw [h1]
        exact Or.inr (Or.inl ⟨e, he, rfl, ho⟩)
  | load s o e _ he ho ih =>
    intro c hc
    apply justified_mono g s _ (loadStep_grows W o s e).pts_mono c
    rcases loadStep_copyEdges W o s e with h | ⟨h, _, _⟩
    · rw [h] at hc
      exact ih c hc
    · rw [h] at hc
      rcases List.mem_append.mp hc with h1 | h1
      · exact ih c h1
      · rw [List.mem_singleton] at h1
        rw [h1]
        exact Or.inr (Or.inr ⟨e, he, rfl, ho⟩)
  | copy s p e _ _ _ ih =>
    intro c hc
    rw [copyStep_consg] at hc
    exact justified_mono g s _ (copyStep_grows W p s e).pts_mono c (ih c hc)
  | gep s p e _ _ _ ih =>
    intro c hc
    rw [gepStep_consg] at hc
    exact justified_mono g s _ (gepStep_grows W rf p s e).pts_mono c (ih c hc)

/-! ## The claims, continued -/

/-- Claim C11 (Fixpoint stability): in the terminal state of `runPointerAnalysis` (work
queue empty), applying the body of the main loop to any node `p` adds no edge to the graph,
grows no points-to set and pushes no node onto the work queue. -/
theorem fixpoint_stability (W : WorkList) (hW : W.Lawful) (rf : Nat → Nat → Nat) (fuel : Nat)
    (g : ConstraintGraph) (s : State) (h : runPointerAnalysis W rf fuel g = some s) (p : Nat) :
    s.worklist = [] ∧
    (processNode W rf p s).consg = s.consg ∧
    (processNode W rf p s).pts = s.pts ∧
    (processNode W rf p s).worklist = [] := by
  have hf := run_final W hW rf fuel g s h
  have hfix := processNode_fixed W rf p s hf.sound.sorted (hf.sat p)
  rw [hfix]
  exact ⟨hf.empty, rfl, rfl, hf.empty⟩

theorem fixpoint_stability_witness :
    runPointerAnalysis fifoWorkList fieldOf 10 scenario3 = some scenario3Final ∧
    scenario3Final.consg.copyEdges = [⟨11, 2⟩] ∧
    (scenario3Final.worklist = [] ∧
    (processNode fifoWorkList fieldOf 12 scenario3Final).consg = scenario3Final.consg ∧
    (processNode fifoWorkList fieldOf 12 scenario3Final).pts = scenario3Final.pts ∧
    (processNode fifoWorkList fieldOf 12 scenario3Final).worklist = []) :=
  ⟨rfl, by decide,
    fixpoint_stability fifoWorkList fifoWorkList_lawful fieldOf 10 scenario3 scenario3Final
      rfl 12⟩

/-- Claim C12, as stated, fails: on a store that already has `O1 ∈ pointsTo(P1)` the
initialization pass of scenario 1 leaves `pointsTo(P1)` as it was and still pushes `P1`. -/
theorem addr_push_counterexample :
    1 ∈ preseeded.pts 11 ∧
    (initPass fifoWorkList preseeded).pts 11 = preseeded.pts 11 ∧
    preseeded.worklist = [] ∧
    (initPass fifoWorkList preseeded).worklist = [11] ∧
    ¬ (11 ∈ (initPass fifoWorkList preseeded).worklist ↔
        (initPass fifoWorkList preseeded).pts 11 ≠ preseeded.pts 11) := by
  decide

/-- Claim C12, amended (Initialization push): for every Addr edge `obj → ptr` into a node of
the graph and for every initial points-to store, the initialization pass inserts `obj`
into `pointsTo(ptr)` and pushes `ptr` onto the work queue, whether or not the insertion
changed `pointsTo(ptr)`; each single Addr step is an insertion followed by a push. -/
theorem addr_push_unconditional (W : WorkList) (hW : W.Lawful) (s : State)
    (e : ConstraintEdge) (he : e ∈ s.consg.addrEdges) (hn : e.dst ∈ s.consg.nodes) :
    e.src ∈ (initPass W s).pts e.dst ∧
    e.dst ∈ (initPass W s).worklist ∧
    (addrStep W s e).pts = ptsInsert s.pts e.dst e.src ∧
    (addrStep W s e).worklist = W.push s.worklist e.dst :=
  ⟨initPass_achieves W s e he hn, initPass_pushes W hW s e he hn, rfl, rfl⟩

theorem addr_push_unconditional_witness :
    (⟨1, 11⟩ : ConstraintEdge) ∈ preseeded.consg.addrEdges ∧ 11 ∈ preseeded.consg.nodes ∧
    (1 ∈ (initPass fifoWorkList preseeded).pts 11 ∧
    11 ∈ (initPass fifoWorkList preseeded).worklist ∧
    (addrStep fifoWorkList preseeded ⟨1, 11⟩).pts = ptsInsert preseeded.pts 11 1 ∧
    (addrStep fifoWorkList preseeded ⟨1, 11⟩).worklist
      = fifoWorkList.push preseeded.worklist 11) :=
  ⟨by decide, by decide,
    addr_push_unconditional fifoWorkList fifoWorkList_lawful preseeded ⟨1, 11⟩
      (by decide) (by decide)⟩

/-- Claim C13 (Frame of the solver): across the initialization pass and the main loop, from
any starting state `s0` (`runPointerAnalysis` is the case `s0 = initState g`), the nodes and
the Addr, Store, Load and Gep edges are unchanged, every Copy edge of `s0` is still present
(so only Copy edges are added), and every points-to set contains what it contained. -/
theorem solver_frame (W : WorkList) (rf : Nat → Nat → Nat) (fuel : Nat) (s0 s : State)
    (h : mainLoop W rf fuel (initPass W s0) = some s) :
    s.consg.nodes = s0.consg.nodes ∧
    s.consg.addrEdges = s0.consg.addrEdges ∧
    s.consg.storeEdges = s0.consg.storeEdges ∧
    s.consg.loadEdges = s0.consg.loadEdges ∧
    s.consg.gepEdges = s0.consg.gepEdges ∧
    (∀ e, e ∈ s0.consg.copyEdges → e ∈ s.consg.copyEdges) ∧
    (∀ n x, x ∈ s0.pts n → x ∈ s.pts n) := by
  have hg := (initPass_grows W s0).grows_trans (mainLoop_grows W rf fuel _ s h)
  exact ⟨hg.nodes, hg.addr, hg.store, hg.load, hg.gep, hg.copy_mono, hg.pts_mono⟩

theorem solver_frame_witness :
    runPointerAnalysis fifoWorkList fieldOf 20 mixedGraph = some mixedFifoFinal ∧
    mixedFifoFinal.consg.copyEdges = [⟨11, 13⟩, ⟨11, 2⟩, ⟨2, 14⟩] ∧
    (mixedFifoFinal.consg.nodes = (initState mixedGraph).consg.nodes ∧
    mixedFifoFinal.consg.addrEdges = (initState mixedGraph).consg.addrEdges ∧
    mixedFifoFinal.consg.storeEdges = (initState mixedGraph).consg.storeEdges ∧
    mixedFifoFinal.consg.loadEdges = (initState mixedGraph).consg.loadEdges ∧
    mixedFifoFinal.consg.gepEdges = (initState mixedGraph).consg.gepEdges ∧
    (∀ e, e ∈ (initState mixedGraph).consg.copyEdges → e ∈ mixedFifoFinal.consg.copyEdges) ∧
    (∀ n x, x ∈ (initState mixedGraph).pts n → x ∈ mixedFifoFinal.pts n)) :=
  ⟨rfl, by decide,
    solver_frame fifoWorkList fieldOf 20 (initState mixedGraph) mixedFifoFinal mixedFifo_run⟩

/-- Claim C14 (Safe no-op reprocessing): for every state (its points-to sets being ascending
lists) and node `p`, if the body of the main loop for `p` leaves `pointsTo(p)` as it was,
then running the body for `p` again right afterwards, with any queue content `wl`, adds no
edge, grows no points-to set and pushes no node. -/
theorem safe_noop_reprocessing (W : WorkList) (rf : Nat → Nat → Nat) (p : Nat) (s : State)
    (hs : SortedPts s) (hsame : (processNode W rf p s).pts p = s.pts p) (wl : List Nat) :
    (processNode W rf p { processNode W rf p s with worklist := wl }).consg
      = (processNode W rf p s).consg ∧
    (processNode W rf p { processNode W rf p s with worklist := wl }).pts
      = (processNode W rf p s).pts ∧
    (processNode W rf p { processNode W rf p s with worklist := wl }).worklist = wl := by
  have hfix := processNode_fixed W rf p { processNode W rf p s with worklist := wl }
    (processNode_sorted W rf p s hs)
    (sat_setWorklist rf _ wl p (processNode_sat_self W rf p s hsame))
  rw [hfix]
  exact ⟨rfl, rfl, rfl⟩

theorem safe_noop_reprocessing_witness :
    SortedPts scenario3Init ∧
    (processNode fifoWorkList fieldOf 12 scenario3Init).pts 12 = scenario3Init.pts 12 ∧
    (processNode fifoWorkList fieldOf 12 scenario3Init).consg.copyEdges = [⟨11, 2⟩] ∧
    ((processNode fifoWorkList fieldOf 12
        { processNode fifoWorkList fieldOf 12 scenario3Init with worklist := [11] }).consg
      = (processNode fifoWorkList fieldOf 12 scenario3Init).consg ∧
    (processNode fifoWorkList fieldOf 12
        { processNode fifoWorkList fieldOf 12 scenario3Init with worklist := [11] }).pts
      = (processNode fifoWorkList fieldOf 12 scenario3Init).pts ∧
    (processNode fifoWorkList fieldOf 12
        { processNode fifoWorkList fieldOf 12 scenario3Init with worklist := [11] }).worklist
      = [11]) := by
  have hs : SortedPts scenario3Init :=
    (visited_sound fifoWorkList fieldOf scenario3 _
      (initPass_visited fifoWorkList fieldOf scenario3)).sorted
  exact ⟨hs, by decide, by decide,
    safe_noop_reprocessing fifoWorkList fieldOf 12 scenario3Init hs (by decide) [11]⟩

/-- Claim C16 (Batched versus per-object Gep enqueue): the solver as written and the
variant that checks growth and pushes the target after each single field-object insertion
end, on every input graph on which both terminate, with the same points-to mapping and the
same edges. -/
theorem gep_batch_equiv (W : WorkList) (hW : W.Lawful) (rf : Nat → Nat → Nat)
    (fuel1 fuel2 : Nat) (g : ConstraintGraph) (s1 s2 : State)
    (h1 : runPointerAnalysis W rf fuel1 g = some s1)
    (h2 : runPointerAnalysisPerObject W rf fuel2 g = some s2) :
    s1.pts = s2.pts ∧
    (∀ e, e ∈ s1.consg.copyEdges ↔ e ∈ s2.consg.copyEdges) ∧
    s1.consg.addrEdges = s2.consg.addrEdges ∧
    s1.consg.storeEdges = s2.consg.storeEdges ∧
    s1.consg.loadEdges = s2.consg.loadEdges ∧
    s1.consg.gepEdges = s2.consg.gepEdges := by
  have f1 := run_final W hW rf fuel1 g s1 h1
  have f2 := runPerObject_final W hW rf fuel2 g s2 h2
  refine ⟨?_, ?_, f1.sound.addr.trans f2.sound.addr.symm,
    f1.sound.store.trans f2.sound.store.symm, f1.sound.load.trans f2.sound.load.symm,
    f1.sound.gep.trans f2.sound.gep.symm⟩
  · funext n
    apply sorted_ext _ _ (f1.sound.sorted n) (f2.sound.sorted n)
    intro x
    rw [final_pts_iff g rf s1 f1, final_pts_iff g rf s2 f2]
  · intro e
    rw [final_copy_iff g rf s1 f1, final_copy_iff g rf s2 f2]

theorem gep_batch_equiv_witness :
    runPointerAnalysis fifoWorkList fieldOf 20 gepPair = some gepPairFinal ∧
    runPointerAnalysisPerObject fifoWorkList fieldOf 20 gepPair = some gepPairPerObjectFinal ∧
    (processNode fifoWorkList fieldOf 11 (initPass fifoWorkList (initState gepPair))).worklist
      = [11, 11, 12] ∧
    (processNodePerObject fifoWorkList fieldOf 11
      (initPass fifoWorkList (initState gepPair))).worklist = [11, 11, 12, 12] ∧
    gepPairFinal.pts 13 = [113, 123] ∧
    (gepPairFinal.pts = gepPairPerObjectFinal.pts ∧
    (∀ e, e ∈ gepPairFinal.consg.copyEdges ↔ e ∈ gepPairPerObjectFinal.consg.copyEdges) ∧
    gepPairFinal.consg.addrEdges = gepPairPerObjectFinal.consg.addrEdges ∧
    gepPairFinal.consg.storeEdges = gepPairPerObjectFinal.consg.storeEdges ∧
    gepPairFinal.consg.loadEdges = gepPairPerObjectFinal.consg.loadEdges ∧
    gepPairFinal.consg.gepEdges = gepPairPerObjectFinal.consg.gepEdges) :=
  ⟨rfl, rfl, by decide, by decide, by decide,
    gep_batch_equiv fifoWorkList fifoWorkList_lawful fieldOf 20 20 gepPair gepPairFinal
      gepPairPerObjectFinal rfl rfl⟩

/-- Claim C17 (Work-queue coverage): at the start of every iteration of the main loop,
every node with an unsatisfied rule is pending in the work queue; and every Addr step and
every iteration leaves pending each node whose points-to set it changed and the source of
each Copy edge it added. -/
theorem worklist_coverage (W : WorkList) (hW : W.Lawful) (rf : Nat → Nat → Nat)
    (g : ConstraintGraph) (s : State) (hl : LoopHead W rf g s) :
    (∀ n, ¬ Sat rf s n → n ∈ s.worklist) ∧
    (∀ p rest t, (processNode W rf p { s with worklist := rest }).pts t ≠ s.pts t →
      t ∈ (processNode W rf p { s with worklist := rest }).worklist) ∧
    (∀ p rest c, c ∈ (processNode W rf p { s with worklist := rest }).consg.copyEdges →
      c ∉ s.consg.copyEdges →
      c.src ∈ (processNode W rf p { s with worklist := rest }).worklist) ∧
    (∀ (s0 : State) (e : ConstraintEdge) t, (addrStep W s0 e).pts t ≠ s0.pts t →
      t ∈ (addrStep W s0 e).worklist) := by
  refine ⟨?_, ?_, ?_, ?_⟩
  · intro n hn
    by_contra hnw
    exact hn (loopHead_coverage W hW rf g s hl n hnw)
  · intro p rest t ht
    exact (processNode_ext W hW rf p { s with worklist := rest }).pts_push t ht
  · intro p rest c hc hnc
    exact (processNode_ext W hW rf p { s with worklist := rest }).copy_push c hc hnc
  · intro s0 e t ht
    exact (addrStep_ext W hW s0 e).pts_push t ht

theorem worklist_coverage_witness :
    LoopHead fifoWorkList fieldOf scenario3 scenario3Init ∧
    ¬ Sat fieldOf scenario3Init 12 ∧ 12 ∈ scenario3Init.worklist ∧
    ((∀ n, ¬ Sat fieldOf scenario3Init n → n ∈ scenario3Init.worklist) ∧
    (∀ p rest t,
      (processNode fifoWorkList fieldOf p { scenario3Init with worklist := rest }).pts t
        ≠ scenario3Init.pts t →
      t ∈ (processNode fifoWorkList fieldOf p { scenario3Init with worklist := rest }).worklist) ∧
    (∀ p rest c,
      c ∈ (processNode fifoWorkList fieldOf p
        { scenario3Init with worklist := rest }).consg.copyEdges →
      c ∉ scenario3Init.consg.copyEdges →
      c.src ∈ (processNode fifoWorkList fieldOf p
        { scenario3Init with worklist := rest }).worklist) ∧
    (∀ (s0 : State) (e : ConstraintEdge) t, (addrStep fifoWorkList s0 e).pts t ≠ s0.pts t →
      t ∈ (addrStep fifoWorkList s0 e).worklist)) := by
  have hns : ¬ Sat fieldOf scenario3Init 12 := by
    intro hsat
    have hmem := hsat.1 ⟨11, 12⟩ (by decide) rfl 2 (by decide)
    revert hmem
    decide
  exact ⟨LoopHead.init, hns, by decide,
    worklist_coverage fifoWorkList fifoWorkList_lawful fieldOf scenario3 scenario3Init
      LoopHead.init⟩

/-- Claim C18 (Provenance of points-to members): starting from the empty store, in every
state a run passes through, every member of every points-to set is the source object of an
Addr edge of the input graph, or the value of the field oracle for the descriptor of a Gep
edge of the input graph and an object that is a member of the points-to set of that edge's
source. -/
theorem pts_provenance (W : WorkList) (rf : Nat → Nat → Nat) (g : ConstraintGraph)
    (s : State) (hv : Visited W rf g s) (n x : Nat) (hx : x ∈ s.pts n) :
    (∃ e ∈ g.addrEdges, e.src = x) ∨
    (∃ ge ∈ g.gepEdges, ∃ o ∈ s.pts ge.src, x = rf o ge.fld) :=
  visited_provenance W rf g s hv n x hx

theorem pts_provenance_witness :
    Visited fifoWorkList fieldOf scenario5 scenario5Final ∧ 113 ∈ scenario5Final.pts 12 ∧
    ((∃ e ∈ scenario5.addrEdges, e.src = 113) ∨
    (∃ ge ∈ scenario5.gepEdges, ∃ o ∈ scenario5Final.pts ge.src, 113 = fieldOf o ge.fld)) :=
  ⟨run_visited fifoWorkList fieldOf 10 scenario5 scenario5Final rfl, by decide,
    pts_provenance fifoWorkList fieldOf scenario5 scenario5Final
      (run_visited fifoWorkList fieldOf 10 scenario5 scenario5Final rfl) 12 113 (by decide)⟩

/-- Claim C19 (Justification of derived edges): every Copy edge of the final graph that is
not in the input graph is `Copy(src → o)` for a Store edge `src → p` with `o` in the final
`pointsTo(p)`, or `Copy(o → dst)` for a Load edge `p → dst` with `o` in the final
`pointsTo(p)`. -/
theorem derived_edges_justified (W : WorkList) (rf : Nat → Nat → Nat) (fuel : Nat)
    (g : ConstraintGraph) (s : State) (h : runPointerAnalysis W rf fuel g = some s)
    (e : ConstraintEdge) (he : e ∈ s.consg.copyEdges) (hne : e ∉ g.copyEdges) :
    (∃ st ∈ g.storeEdges, st.src = e.src ∧ e.dst ∈ s.pts st.dst) ∨
    (∃ ld ∈ g.loadEdges, ld.dst = e.dst ∧ e.src ∈ s.pts ld.src) := by
  rcases visited_justified W rf g s (run_visited W rf fuel g s h) e he with h1 | h1
  · exact absurd h1 hne
  · exact h1

theorem derived_edges_justified_witness :
    runPointerAnalysis fifoWorkList fieldOf 20 mixedGraph = some mixedFifoFinal ∧
    (⟨2, 14⟩ : ConstraintEdge) ∈ mixedFifoFinal.consg.copyEdges ∧
    (⟨2, 14⟩ : ConstraintEdge) ∉ mixedGraph.copyEdges ∧
    ((∃ st ∈ mixedGraph.storeEdges,
        st.src = (⟨2, 14⟩ : ConstraintEdge).src ∧
        (⟨2, 14⟩ : ConstraintEdge).dst ∈ mixedFifoFinal.pts st.dst) ∨
    (∃ ld ∈ mixedGraph.loadEdges,
        ld.dst = (⟨2, 14⟩ : ConstraintEdge).dst ∧
        (⟨2, 14⟩ : ConstraintEdge).src ∈ mixedFifoFinal.pts ld.src)) :=
  ⟨rfl, by decide, by decide,
    derived_edges_justified fifoWorkList fieldOf 20 mixedGraph mixedFifoFinal rfl ⟨2, 14⟩
      (by decide) (by decide)⟩

end Andersen
